import Mathlib

/-!
Shallow embedding of the article-extraction engine of `web_scraper.py`
(class `WebScraper`), together with proofs checking the natural-language
specification against it.  Python strings are modelled as `List Char`
(wrapped in `String` at the interfaces), Python numbers as `ℚ` (all the
numeric work in the scraper is exact decimal/ratio arithmetic whose
comparisons here are far from any floating-point rounding boundary),
`time.time()` values as `ℚ`, and the network as an oracle mapping the
attempt number to the outcome of `session.get`.
-/

set_option maxRecDepth 1000000
set_option maxHeartbeats 8000000

namespace NLPApp

/-! ## Python string primitives -/

/-- The Python whitespace set: characters for which `str.isspace()` holds and
which the regex class `\s` matches on `str` patterns. -/
def isPyWs (c : Char) : Bool :=
  c = ' ' || c = '\t' || c = '\n' || c = '\r' || c = '\x0b' || c = '\x0c' ||
  c = '\x1c' || c = '\x1d' || c = '\x1e' || c = '\x1f' ||
  c = '\u0085' || c = '\u00a0' || c = '\u1680' ||
  (0x2000 ≤ c.val && c.val ≤ 0x200a) ||
  c = '\u2028' || c = '\u2029' || c = '\u202f' || c = '\u205f' || c = '\u3000'

/-- Python `str.strip()`: remove leading and trailing whitespace. -/
def pyStrip (l : List Char) : List Char :=
  ((l.dropWhile isPyWs).reverse.dropWhile isPyWs).reverse

/-- Python `text.split('\n')`: note `''.split('\n') == ['']`. -/
def splitLines : List Char → List (List Char)
  | [] => [[]]
  | c :: t =>
    if c = '\n' then [] :: splitLines t
    else
      match splitLines t with
      | [] => [[c]]
      | h :: r => (c :: h) :: r

/-- Python `'\n'.join(lines)` (on char lists). -/
def joinLines : List (List Char) → List Char
  | [] => []
  | [l] => l
  | l :: t => l ++ '\n' :: joinLines t

/-- Case-insensitive lowering for the ASCII range, as `str.lower()` acts on
the characters occurring in this code's patterns. -/
def asciiLower (c : Char) : Char :=
  if 'A' ≤ c ∧ c ≤ 'Z' then Char.ofNat (c.val.toNat + 32) else c

def lowerChars (l : List Char) : List Char := l.map asciiLower

/-- `pat in s` for Python strings: `pat` occurs as a contiguous substring. -/
def containsSeq (pat : List Char) : List Char → Bool
  | [] => decide (pat = [])
  | c :: t => pat.isPrefixOf (c :: t) || containsSeq pat t

/-! ## `enhanced_text_cleaning` (web_scraper.py lines 350–390)

Each regex substitution of the Python source is embedded as a scanner with
the same input/output behaviour (leftmost match, greedy quantifiers). -/

/-- `re.sub(r'\r\n|\r', '\n', text)`. -/
def normNewlines : List Char → List Char
  | [] => []
  | '\r' :: '\n' :: t => '\n' :: normNewlines t
  | '\r' :: t => '\n' :: normNewlines t
  | c :: t => c :: normNewlines t

/-- `re.sub(r'\t', ' ', text)`. -/
def tabsToSpaces (l : List Char) : List Char :=
  l.map fun c => if c = '\t' then ' ' else c

/-- `re.sub(r'[ ]{2,}', ' ', text)`: each maximal run of spaces becomes
one (`inRun` records whether the previous character was a space). -/
def collapseSpacesGo (inRun : Bool) : List Char → List Char
  | [] => []
  | c :: t =>
    if c = ' ' then
      if inRun then collapseSpacesGo true t else ' ' :: collapseSpacesGo true t
    else c :: collapseSpacesGo false t

def collapseSpaces (l : List Char) : List Char := collapseSpacesGo false l

/-- Inside one maximal whitespace run holding at least three newlines, the
regex `\n\s*\n\s*\n+` matches greedily from the run's first newline to its
last newline; `re.sub` replaces that span with `'\n\n'`. -/
def squeezeRun (r : List Char) : List Char :=
  if 3 ≤ r.count '\n' then
    (r.takeWhile (fun c => ¬ c = '\n')) ++ '\n' :: '\n' ::
      (r.reverse.takeWhile (fun c => ¬ c = '\n')).reverse
  else r

/-- `re.sub(r'\n\s*\n\s*\n+', '\n\n', text)`: scan buffering the current
maximal whitespace run (in reverse); when the run ends, `squeezeRun`
applies the substitution to it. -/
def collapseNLRunsGo (acc : List Char) : List Char → List Char
  | [] => squeezeRun acc.reverse
  | c :: t =>
    if isPyWs c then collapseNLRunsGo (c :: acc) t
    else squeezeRun acc.reverse ++ c :: collapseNLRunsGo [] t

def collapseNLRuns (l : List Char) : List Char := collapseNLRunsGo [] l

/-- `re.sub(r' *\n *', '\n', text)`: a pending run of `pend` spaces is
swallowed exactly when a newline follows it, and (`afterNL` mode) the
spaces directly after an emitted newline are swallowed. -/
def stripSpacesAroundNLGo : Nat → Bool → List Char → List Char
  | pend, aft, [] => if aft then [] else List.replicate pend ' '
  | pend, aft, c :: t =>
    if aft then
      if c = ' ' then stripSpacesAroundNLGo 0 true t
      else if c = '\n' then '\n' :: stripSpacesAroundNLGo 0 true t
      else c :: stripSpacesAroundNLGo 0 false t
    else
      if c = ' ' then stripSpacesAroundNLGo (pend + 1) false t
      else if c = '\n' then '\n' :: stripSpacesAroundNLGo 0 true t
      else List.replicate pend ' ' ++ c :: stripSpacesAroundNLGo 0 false t

def stripSpacesAroundNL (l : List Char) : List Char := stripSpacesAroundNLGo 0 false l

/-- `re.sub(r'[p]{lo,}', p * 3, text)`: a maximal run of `p` of length at
least `lo` is replaced by three copies of `p`; `k` counts the `p`s of the
current run, flushed when the run ends. -/
def capFlush (p : Char) (lo k : Nat) : List Char :=
  if lo ≤ k then List.replicate 3 p else List.replicate k p

def capPunctGo (p : Char) (lo : Nat) : Nat → List Char → List Char
  | k, [] => capFlush p lo k
  | k, c :: t =>
    if c = p then capPunctGo p lo (k + 1) t
    else capFlush p lo k ++ c :: capPunctGo p lo 0 t

def capPunct (p : Char) (lo : Nat) (l : List Char) : List Char := capPunctGo p lo 0 l

/-- The short-line filter: `line = line.strip()`, kept when
`len(line) == 0 or len(line) > 5`. -/
def keepLine (l : List Char) : Bool := l.length = 0 || 5 < l.length

def filterShortLines (ls : List (List Char)) : List (List Char) :=
  (ls.map pyStrip).filter keepLine

/-- The `empty_count <= 1` loop: each run of empty lines keeps one line
(`prevEmpty` records whether the previous kept line was empty of a run). -/
def collapseEmptiesGo (prevEmpty : Bool) : List (List Char) → List (List Char)
  | [] => []
  | l :: t =>
    if l = ([] : List Char) then
      if prevEmpty then collapseEmptiesGo true t else [] :: collapseEmptiesGo true t
    else l :: collapseEmptiesGo false t

def collapseEmpties (ls : List (List Char)) : List (List Char) := collapseEmptiesGo false ls

/-- `WebScraper.enhanced_text_cleaning` on char lists. -/
def cleanChars (l : List Char) : List Char :=
  pyStrip (joinLines (collapseEmpties (filterShortLines (splitLines
    (capPunct '.' 4 (capPunct '?' 3 (capPunct '!' 3
      (stripSpacesAroundNL (collapseNLRuns (collapseSpaces (tabsToSpaces
        (normNewlines l))))))))))))

/-- `WebScraper.enhanced_text_cleaning` (web_scraper.py lines 350–390). -/
def enhanced_text_cleaning (s : String) : String :=
  if s = "" then "" else ⟨cleanChars s.data⟩

/-! ## Document tree model

`BeautifulSoup` trees: element nodes carry a numeric identity so that the
destructive `decompose()` mutation of `_extract_by_length_heuristics` can be
modelled (the Python code collects element references first and mutates the
shared tree afterwards).  Text nodes are leaves. -/

inductive Node where
  | text (s : String)
  | elem (id : Nat) (tag : String) (attrs : List (String × String)) (children : List Node)

namespace Node

def tagOf? : Node → Option String
  | .text _ => none
  | .elem _ g _ _ => some g

def idOf? : Node → Option Nat
  | .text _ => none
  | .elem i _ _ _ => some i

def attr : Node → String → Option String
  | .text _, _ => none
  | .elem _ _ a _, k => (a.find? (·.1 = k)).map (·.2)

end Node

/-! `element.get_text()`: concatenation of all text descendants in order. -/
mutual
def getText : Node → List Char
  | .text s => s.data
  | .elem _ _ _ cs => getTextL cs
def getTextL : List Node → List Char
  | [] => []
  | n :: t => getText n ++ getTextL t
end

/-! `find_all`: matching nodes in document (pre-)order; `findAll` itself
returns only strict descendants, as BeautifulSoup does. -/
mutual
def findAllN (p : Node → Bool) : Node → List Node
  | .text s => if p (.text s) then [.text s] else []
  | .elem i g a cs =>
    (if p (.elem i g a cs) then [.elem i g a cs] else []) ++ findAllL p cs
def findAllL (p : Node → Bool) : List Node → List Node
  | [] => []
  | n :: t => findAllN p n ++ findAllL p t
end

def findAll (p : Node → Bool) : Node → List Node
  | .text _ => []
  | .elem _ _ _ cs => findAllL p cs

def tagIn (tags : List String) (n : Node) : Bool :=
  match n.tagOf? with
  | some g => tags.contains g
  | none => false

/-- Python `text.split()` (whitespace words); `acc` holds the current word
reversed. -/
def pyWordsGo (acc : List Char) : List Char → List (List Char)
  | [] => if acc = [] then [] else [acc.reverse]
  | c :: t =>
    if isPyWs c then
      if acc = [] then pyWordsGo [] t else acc.reverse :: pyWordsGo [] t
    else pyWordsGo (c :: acc) t

def pyWords (l : List Char) : List (List Char) := pyWordsGo [] l

/-- html class attribute, split into tokens as `element.get('class', [])`. -/
def classTokens (n : Node) : List String :=
  match n.attr "class" with
  | some v => (pyWords v.data).map (fun l => ⟨l⟩)
  | none => []

/-! `str(element)`: the HTML serialization used by `_extract_by_text_density`
(`html_length = len(str(element))`). -/
mutual
def render : Node → List Char
  | .text s => s.data
  | .elem _ g a cs =>
    '<' :: (g.data ++ renderAttrs a ++ '>' :: renderL cs ++ '<' :: '/' :: g.data ++ ['>'])
def renderAttrs : List (String × String) → List Char
  | [] => []
  | (k, v) :: t => ' ' :: (k.data ++ '=' :: '"' :: v.data ++ '"' :: renderAttrs t)
def renderL : List Node → List Char
  | [] => []
  | n :: t => render n ++ renderL t
end

/-! `unwanted.decompose()` over a subtree: remove every strict descendant
element whose tag is in `tags` (used by `_extract_by_length_heuristics` on
`['nav', 'aside', 'footer', 'header']`). -/
mutual
def removeTags (tags : List String) : Node → Node
  | .text s => .text s
  | .elem i g a cs => .elem i g a (removeTagsL tags cs)
def removeTagsL (tags : List String) : List Node → List Node
  | [] => []
  | .text s :: t => .text s :: removeTagsL tags t
  | .elem i g a cs :: t =>
    if tags.contains g then removeTagsL tags t
    else removeTags tags (.elem i g a cs) :: removeTagsL tags t
end

/-! Addressing a collected element reference after the tree has been
mutated: look it up / rewrite it in place by its identity. -/
mutual
def findId (i : Nat) : Node → Option Node
  | .text _ => none
  | .elem j g a cs => if j = i then some (.elem j g a cs) else findIdL i cs
def findIdL (i : Nat) : List Node → Option Node
  | [] => none
  | n :: t =>
    match findId i n with
    | some r => some r
    | none => findIdL i t
end

mutual
def mapAtId (i : Nat) (f : Node → Node) : Node → Node
  | .text s => .text s
  | .elem j g a cs =>
    if j = i then f (.elem j g a cs) else .elem j g a (mapAtIdL i f cs)
def mapAtIdL (i : Nat) (f : Node → Node) : List Node → List Node
  | [] => []
  | n :: t => mapAtId i f n :: mapAtIdL i f t
end

/-! The `(identity, tag)` listing of a tree's elements in document order:
the observable skeleton used to state frame properties of the destructive
length-heuristic strategy. -/
mutual
def elemIdTags : Node → List (Nat × String)
  | .text _ => []
  | .elem i g _ cs => (i, g) :: elemIdTagsL cs
def elemIdTagsL : List Node → List (Nat × String)
  | [] => []
  | n :: t => elemIdTags n ++ elemIdTagsL t
end

/-! ## CSS selectors used by `_extract_semantic_content` and the sanitizer -/

inductive SimpleSel where
  | tag (t : String)
  | tagClass (t c : String)
  | attrEq (k v : String)

def matchSimple (s : SimpleSel) (n : Node) : Bool :=
  match s with
  | .tag t => n.tagOf? = some t
  | .tagClass t c => n.tagOf? = some t && (classTokens n).contains c
  | .attrEq k v => n.attr k = some v

/-- A selector of the shapes occurring in the source: either a simple
selector or `ancestor descendant` with simple parts. -/
inductive Sel where
  | simple (s : SimpleSel)
  | desc (anc child : SimpleSel)

mutual
def selDescN (a c : SimpleSel) (anc : Bool) : Node → List Node
  | .text _ => []
  | .elem i g at_ cs =>
    (if anc && matchSimple c (.elem i g at_ cs) then [Node.elem i g at_ cs] else []) ++
      selDescL a c (anc || matchSimple a (.elem i g at_ cs)) cs
def selDescL (a c : SimpleSel) (anc : Bool) : List Node → List Node
  | [] => []
  | n :: t => selDescN a c anc n ++ selDescL a c anc t
end

/-- `soup.select(selector)`: matching elements in document order. -/
def select (s : Sel) (root : Node) : List Node :=
  match s with
  | .simple m => findAllN (matchSimple m) root
  | .desc a c => selDescN a c false root

/-! ## `extract_element_metadata`, `_score_content_quality` -/

def joinWith (sep : List Char) : List (List Char) → List Char
  | [] => []
  | [l] => l
  | l :: t => l ++ sep ++ joinWith sep t

def headerTags : List String := ["h1", "h2", "h3", "h4", "h5", "h6"]

structure ElemMeta where
  element_type : String
  element_id : String
  element_classes : String
  text_length : Nat
  word_count : Nat
  paragraph_count : Nat
  header_count : Nat
  link_count : Nat

/-- `WebScraper.extract_element_metadata` (lines 392–409). -/
def extract_element_metadata (e : Node) : ElemMeta :=
  let text := getText e
  { element_type := (e.tagOf?).getD ""
  , element_id := (e.attr "id").getD ""
  , element_classes := ⟨joinWith [' '] ((classTokens e).map String.data)⟩
  , text_length := text.length
  , word_count := (pyWords text).length
  , paragraph_count := (findAll (tagIn ["p"]) e).length
  , header_count := (findAll (tagIn headerTags) e).length
  , link_count := (findAll (tagIn ["a"]) e).length }

/-- The Python repr of a list of strings, as produced by the f-string
`f"{element.get('class', [])} {element.get('id', '')}"` (quote escaping
inside tokens does not arise for the scored keywords). -/
def pyReprStrList (ts : List String) : List Char :=
  '[' :: (joinWith [',', ' '] (ts.map (fun t => '\'' :: (t.data ++ ['\'']))) ++ [']'])

/-- `WebScraper._score_content_quality` (lines 310–348). -/
def score_content_quality (e : Node) : Int :=
  let text := getText e
  let lenScore : Int :=
    if 2000 < text.length then 30
    else if 1000 < text.length then 20
    else if 500 < text.length then 10
    else 0
  let paraScore : Int := min (((findAll (tagIn ["p"]) e).length : Int) * 2) 20
  let headScore : Int := min ((findAll (tagIn headerTags) e).length : Int) 10
  let attrsStr :=
    lowerChars (pyReprStrList (classTokens e) ++ ' ' :: ((e.attr "id").getD "").data)
  let posInd := ["content", "article", "post", "story", "main", "body"]
  let negInd := ["nav", "menu", "sidebar", "footer", "header", "ad", "comment"]
  let posPts : Int := 5 * ((posInd.filter (fun w => containsSeq w.data attrsStr)).length : Int)
  let negPts : Int := 10 * ((negInd.filter (fun w => containsSeq w.data attrsStr)).length : Int)
  max (lenScore + paraScore + headScore + posPts - negPts) 0

/-! ## The four extraction strategies (lines 152–308)

Each strategy yields `(content, metadata, score)`; `meta = none` models the
empty dict returned on failure (falsy under `if content_metadata:`).
Scores are rationals: the Python values are ints and floats whose exact
decimal values these rationals are; no comparison in any proof below sits
within floating-point rounding distance of a boundary. -/

structure StratOut where
  content : List Char
  meta : Option ElemMeta
  score : ℚ

def semanticSelectors : List (Sel × Int) :=
  [ (.simple (.tag "article"), 100)
  , (.desc (.tag "main") (.tag "article"), 95)
  , (.desc (.attrEq "role" "main") (.tag "article"), 90)
  , (.simple (.tagClass "div" "article-content"), 85)
  , (.simple (.tagClass "div" "post-content"), 85)
  , (.simple (.tagClass "div" "entry-content"), 80)
  , (.simple (.attrEq "itemprop" "articleBody"), 95)
  , (.simple (.tag "main"), 70)
  , (.simple (.attrEq "role" "main"), 65) ]

/-- `WebScraper._extract_semantic_content` (lines 152–184): read-only. -/
def extract_semantic_content (soup : Node) : StratOut :=
  let step := fun (st : Option Node × Int) (p : Sel × Int) =>
    (select p.1 soup).foldl
      (fun st e =>
        let total := p.2 + score_content_quality e
        if st.2 < total then (some e, total) else st)
      st
  let res := semanticSelectors.foldl step (none, 0)
  match res.1 with
  | some e => ⟨cleanChars (getText e), some (extract_element_metadata e), (res.2 : ℚ)⟩
  | none => ⟨[], none, 0⟩

/-- `WebScraper._extract_by_length_heuristics` (lines 186–224).  The Python
code collects candidate references first, then destructively
`decompose()`s each candidate's `nav`/`aside`/`footer`/`header` descendants
in the shared tree before scoring it, so the strategy returns the (possibly
mutated) tree alongside its candidate.  A candidate whose own subtree was
decomposed by an earlier iteration is detached: it scores
`0 + 0 - 1*20 < 0` in Python and is never selected, which the `none`
branch below reproduces by skipping it. -/
def lengthHeurStep (st : Node × Option Nat × ℚ) (i : Nat) : Node × Option Nat × ℚ :=
  match findId i st.1 with
  | none => st
  | some _ =>
    let tree := mapAtId i (removeTags ["nav", "aside", "footer", "header"]) st.1
    match findId i tree with
    | none => (tree, st.2.1, st.2.2)
    | some e =>
      let text := getText e
      let lengthScore : ℚ := min ((text.length : ℚ) / 100) 50
      let paraScore : ℚ := min (((findAll (tagIn ["p"]) e).length : ℚ) * 2) 30
      let links := findAll (tagIn ["a"]) e
      let linkText : ℚ := ((links.map (fun a => (getText a).length)).sum : ℚ)
      let linkRatio : ℚ := if 0 < text.length then linkText / (text.length : ℚ) else 1
      let total := lengthScore + paraScore - linkRatio * 20
      if st.2.2 < total then (tree, some i, total) else (tree, st.2.1, st.2.2)

def extract_by_length_heuristics (soup : Node) : Node × StratOut :=
  let ids := (findAll (tagIn ["div", "section", "article", "main"]) soup).filterMap Node.idOf?
  let res := ids.foldl lengthHeurStep (soup, none, 0)
  match res.2.1 with
  | some i =>
    match findId i res.1 with
    | some e => (res.1, ⟨cleanChars (getText e), some (extract_element_metadata e), res.2.2⟩)
    | none => (res.1, ⟨[], none, 0⟩)
  | none => (res.1, ⟨[], none, 0⟩)

/-- `WebScraper._extract_by_text_density` (lines 226–262): read-only. -/
def extract_by_text_density (soup : Node) : StratOut :=
  let cands := findAll (tagIn ["div", "section", "article"]) soup
  let step := fun (st : Option Node × ℚ) (e : Node) =>
    let textLength := (getText e).length
    let htmlLength := (render e).length
    if htmlLength = 0 then st
    else
      let density : ℚ := (textLength : ℚ) / (htmlLength : ℚ)
      let density :=
        if e.tagOf? = some "article" ∨ e.tagOf? = some "section" then density * (6 / 5)
        else density
      let cls := lowerChars (joinWith [' '] ((classTokens e).map String.data))
      let density :=
        if ["content", "article", "post", "story"].any (fun w => containsSeq w.data cls) then
          density * (11 / 10)
        else density
      if st.2 < density ∧ 200 < textLength then (some e, density) else st
  let res := cands.foldl step (none, 0)
  match res.1 with
  | some e =>
    ⟨cleanChars (getText e), some (extract_element_metadata e), ((res.2 * 100).floor : ℚ)⟩
  | none => ⟨[], none, 0⟩

/-- `WebScraper._extract_readability_content` (lines 264–308): read-only. -/
def extract_readability_content (soup : Node) : StratOut :=
  let cands := findAll (tagIn ["div", "section", "article", "main"]) soup
  let step := fun (st : Option Node × ℚ) (e : Node) =>
    let text := getText e
    if text.length < 100 then st
    else
      let sentences := text.count '.' + text.count '!' + text.count '?'
      let words := (pyWords text).length
      if sentences = 0 ∨ words = 0 then st
      else
        let avg : ℚ := (words : ℚ) / (sentences : ℚ)
        let sentenceScore : ℚ := max 0 (20 - |avg - 35 / 2|)
        let paraScore : ℚ := min ((findAll (tagIn ["p"]) e).length : ℚ) 20
        let headerScore : ℚ := min (((findAll (tagIn headerTags) e).length : ℚ) * 3) 15
        let total := sentenceScore + paraScore + headerScore
        if st.2 < total then (some e, total) else st
  let res := cands.foldl step (none, 0)
  match res.1 with
  | some e =>
    ⟨cleanChars (getText e), some (extract_element_metadata e), (res.2.floor : ℚ)⟩
  | none => ⟨[], none, 0⟩

/-! ## `advanced_content_extraction` (lines 127–150) -/

/-- One run of the strategy list, threading the shared tree: the semantic
strategy reads the original tree, the length-heuristic strategy may mutate
it, and the density and readability strategies read the mutated tree. -/
def runStrategies (soup : Node) : Node × List StratOut :=
  let r1 := extract_semantic_content soup
  let lh := extract_by_length_heuristics soup
  let r3 := extract_by_text_density lh.1
  let r4 := extract_readability_content lh.1
  (lh.1, [r1, lh.2, r3, r4])

/-- The selection loop of `advanced_content_extraction`:
`if score > best_score and len(content) > 200`, starting from
`best_content = ""`, `best_score = 0`, `best_metadata = {}`. -/
def selectStep (st : List Char × ℚ × Option ElemMeta) (r : StratOut) :
    List Char × ℚ × Option ElemMeta :=
  if st.2.1 < r.score ∧ 200 < r.content.length then (r.content, r.score, r.meta) else st

def selectBest (results : List StratOut) : List Char × Option ElemMeta :=
  let res := results.foldl selectStep ([], 0, none)
  (res.1, res.2.2)

/-- `WebScraper.advanced_content_extraction` (lines 127–150): the returned
pair is `(best_content, best_metadata)`.  The Python `try/except` around
each strategy is dead in this model because every embedded strategy is
total. -/
def advanced_content_extraction (soup : Node) : List Char × Option ElemMeta :=
  selectBest (runStrategies soup).2

/-! ## URL validation (`is_valid_url`, lines 42–64) -/

def isAsciiAlpha (c : Char) : Bool := ('a' ≤ c && c ≤ 'z') || ('A' ≤ c && c ≤ 'Z')
def isAsciiDigit (c : Char) : Bool := '0' ≤ c && c ≤ '9'
def isSchemeChar (c : Char) : Bool :=
  isAsciiAlpha c || isAsciiDigit c || c = '+' || c = '-' || c = '.'

/-- CPython `urlparse`, restricted to the `(scheme, netloc)` projection the
validator reads: tab/CR/LF bytes are removed, the prefix before the first
`:` becomes the (lowercased) scheme when it is a letter followed by scheme
characters, the netloc is the `//`-introduced authority up to `/`, `?` or
`#`, and a netloc with unbalanced square brackets raises `ValueError`
(modelled as `none`, which the validator's bare `except` turns into
`False`). -/
def urlparseSchemeNetloc (url : List Char) : Option (List Char × List Char) :=
  let u := url.filter fun c => !(c = '\t' || c = '\r' || c = '\n')
  let pre := u.takeWhile (· ≠ ':')
  let sr :=
    if pre.length < u.length && !pre.isEmpty && isAsciiAlpha (pre.headD ' ') &&
        pre.all isSchemeChar then
      (lowerChars pre, u.drop (pre.length + 1))
    else ([], u)
  let netloc :=
    if sr.2.take 2 = ['/', '/'] then
      (sr.2.drop 2).takeWhile fun c => !(c = '/' || c = '?' || c = '#')
    else []
  if (netloc.contains '[') ≠ (netloc.contains ']') then none
  else some (sr.1, netloc)

def suspiciousPatterns : List String := ["javascript:", "data:", "file:"]

/-- `WebScraper.is_valid_url` (lines 42–64). -/
def is_valid_url (url : String) : Bool :=
  match urlparseSchemeNetloc url.data with
  | none => false
  | some (scheme, netloc) =>
    (scheme = "http".data || scheme = "https".data) && !netloc.isEmpty &&
    !(url.data.any fun c => 0x7F < c.val) &&
    !(suspiciousPatterns.any fun p => containsSeq p.data (lowerChars url.data))

/-! ## Result cache (lines 39–40, 464–469, 545–552, 604–606) -/

/-- `self.extraction_cache`: Python dict in insertion order,
`key ↦ (timestamp, content)`. -/
abbrev Cache := List (String × ℚ × String)

def cacheFind (c : Cache) (k : String) : Option (ℚ × String) :=
  (c.find? fun e => e.1 = k).map fun e => e.2

/-- Dict write: updating an existing key keeps its position. -/
def cacheSet : Cache → String → ℚ × String → Cache
  | [], k, v => [(k, v)]
  | e :: t, k, v => if e.1 = k then (k, v) :: t else e :: cacheSet t k v

def removeFirstWithTs : Cache → ℚ → Cache
  | [], _ => []
  | e :: t, m => if e.2.1 = m then t else e :: removeFirstWithTs t m

/-- `min(cache.keys(), key=lambda k: cache[k][0])` followed by `del`:
remove the first entry (dict iteration order) holding the minimal
timestamp. -/
def evictOldest (c : Cache) : Cache :=
  match (c.map fun e => e.2.1).minimum? with
  | some m => removeFirstWithTs c m
  | none => c

/-- The cache write + capacity limit of `scrape_article` (lines 545–552). -/
def cacheInsert (c : Cache) (k : String) (t : ℚ) (v : String) : Cache :=
  let c1 := cacheSet c k (t, v)
  if 50 < c1.length then evictOldest c1 else c1

/-- `hashlib.md5(url.encode()).hexdigest()`: modelled as an injective key
function (the identity); no property below depends on the digest itself. -/
def urlHash (url : String) : String := url

/-! ## HTTP layer -/

/-- `requests` exceptions that `session.get` itself can raise; all are
`RequestException` subclasses. -/
inductive TransportExc where
  | timeout
  | connError
  | otherReq (msg : String)

structure HttpResponse where
  status : Nat
  contentType : String
  soup : Node

inductive GetOutcome where
  | ok (resp : HttpResponse)
  | exc (e : TransportExc)

/-- The ambient behaviour of one `scrape_article` call: the outcome of the
`i`-th `session.get`, and the two `time.time()` readings (cache check,
cache write). -/
structure ScrapeEnv where
  attempts : Nat → GetOutcome
  nowCheck : ℚ
  nowWrite : ℚ

/-- Exceptions that can propagate inside the `try:` body. -/
inductive PyExc where
  | timeout
  | connError
  | httpError (status : Nat)
  | otherReq (msg : String)

def toPyExc : TransportExc → PyExc
  | .timeout => .timeout
  | .connError => .connError
  | .otherReq m => .otherReq m

/-- One loop iteration: `session.get` then `response.raise_for_status()`
(which raises `HTTPError` for 4xx/5xx). -/
def attemptResult (env : ScrapeEnv) (i : Nat) : Except PyExc HttpResponse :=
  match env.attempts i with
  | .ok r => if 400 ≤ r.status ∧ r.status < 600 then .error (.httpError r.status) else .ok r
  | .exc e => .error (toPyExc e)

structure FetchResult where
  outcome : Except PyExc HttpResponse
  sleeps : List ℚ
  requests : Nat

/-- The retry loop (lines 475–486): `for attempt in range(3)`, catching
`requests.exceptions.RequestException` — which includes the `HTTPError`
raised by `raise_for_status()` — re-raising on the last attempt and
otherwise sleeping `2 ** attempt` before retrying.  `sleeps` records the
backoff sleeps, `requests` the number of `session.get` calls issued. -/
def isOkB : Except PyExc HttpResponse → Bool
  | .ok _ => true
  | .error _ => false

def fetchLoop (env : ScrapeEnv) : FetchResult :=
  match attemptResult env 0 with
  | .ok r => ⟨.ok r, [], 1⟩
  | .error _ =>
    match attemptResult env 1 with
    | .ok r => ⟨.ok r, [1], 2⟩
    | .error _ =>
      match attemptResult env 2 with
      | .ok r => ⟨.ok r, [1, 2], 3⟩
      | .error e => ⟨.error e, [1, 2], 3⟩

/-! ## DOM sanitizer (lines 496–505)

The Python loop collects each selector's matches and decomposes them in
sequence; the net effect on the tree is the removal of every element
matching any of the selectors, together with its subtree. -/

def unwantedTags : List String := ["script", "style", "nav", "header", "footer", "aside"]
def unwantedClasses : List String :=
  ["advertisement", "ad", "sidebar", "comments", "social-share", "related-articles"]

def isUnwanted (n : Node) : Bool :=
  tagIn unwantedTags n || (classTokens n).any (fun c => unwantedClasses.contains c) ||
    n.attr "id" = some "comments"

mutual
def sanitize : Node → Node
  | .text s => .text s
  | .elem i g a cs => .elem i g a (sanitizeL cs)
def sanitizeL : List Node → List Node
  | [] => []
  | .text s :: t => .text s :: sanitizeL t
  | .elem i g a cs :: t =>
    if isUnwanted (.elem i g a cs) then sanitizeL t
    else sanitize (.elem i g a cs) :: sanitizeL t
end

/-! ## Page metadata (lines 411–457) -/

structure PageMeta where
  title : Option String
  description : Option String
  author : Option String
  publish_date : Option String

def findFirst (p : Node → Bool) (soup : Node) : Option Node := (findAll p soup).head?

/-- `soup.find('meta', attrs={k: v})` followed by
`if tag and tag.get('content'): metadata[key] = tag['content'].strip()`. -/
def metaContent (soup : Node) (k v : String) : Option String :=
  match findFirst (fun n => n.tagOf? = some "meta" && n.attr k = some v) soup with
  | some tag =>
    match tag.attr "content" with
    | some c => if c = "" then none else some (⟨pyStrip c.data⟩ : String)
    | none => none
  | none => none

/-- The fields of `extract_comprehensive_metadata` that can reach the
returned string.  The keywords, modified_date, og_* / twitter_*, language
and structured-data entries the Python code also collects never surface in
`scrape_article`'s output and are omitted. -/
def extract_comprehensive_metadata (soup : Node) : PageMeta :=
  { title := (findFirst (tagIn ["title"]) soup).map fun t => (⟨pyStrip (getText t)⟩ : String)
  , description := metaContent soup "name" "description"
  , author := metaContent soup "name" "author"
  , publish_date := metaContent soup "property" "article:published_time" }

/-! ## Result-string construction (lines 459–573)

The literals below are copied byte-for-byte from the source (its emoji
prefixes are mojibake in the file itself). -/

def msgInvalidURL : String := "‚ùå Invalid URL format. Please enter a valid URL starting with http:// or https://"
def msgCachedPrefix : String := "üìã [Cached] "
def msgInsufficient : String := "‚ùå Could not extract significant content. This page might use dynamic loading, be behind a paywall, or contain primarily multimedia content."
def msgTimeout : String := "‚è∞ Request timed out. The website is taking too long to respond."
def msgConn : String := "üåê Connection failed. Please check your internet connection or try again later."
def msg403 : String := "üö´ Access denied. The website is blocking automated requests."
def msg404 : String := "üîç Page not found. Please verify the URL is correct."
def msg429 : String := "‚è±Ô∏è Rate limited. The website is temporarily blocking requests. Try again later."

def msgInvalidContentType (ct : String) : String :=
  "‚ùå Invalid content type: " ++ ct ++ ". This appears to be a " ++ (⟨ct.data.takeWhile (· ≠ '/')⟩ : String) ++ " file, not a webpage."

def msg5xx (status : Nat) : String := "üîß Server error (" ++ toString status ++ "). The website is experiencing technical difficulties."
def msgHTTPOther (status : Nat) : String := "üìÑ HTTP error " ++ toString status ++ ". The website returned an error response."
def msgUnexpected (m : String) : String := "‚ö†Ô∏è Unexpected error: " ++ m

def sepLine : String := ⟨(List.replicate 60 "‚îÄ".data).join⟩

def titlePart (t : String) : String := "üì∞ **" ++ t ++ "**\n"
def authorPart (a : String) : String := "‚úçÔ∏è Author: " ++ a
def publishPart (d : String) : String := "üìÖ Published: " ++ (⟨d.data.take 10⟩ : String)
def descPart (d : String) : String := "üìù Description: " ++ d
def extractedPart (et : String) : String := "\nüìä Extracted from " ++ et ++ " element"
def statsPart (wc pc : Nat) : String :=
  "üìè Content: " ++ toString wc ++ " words, " ++ toString pc ++ " paragraphs"

def optTruthy : Option String → Option String
  | some s => if s = "" then none else some s
  | none => none

/-- Lines 517–543: assemble `result_parts` and join with newlines. -/
def formatResult (md : PageMeta) (content : List Char) (cm : Option ElemMeta) : String :=
  let parts : List String :=
    (match optTruthy md.title with | some t => [titlePart t] | none => []) ++
    (match optTruthy md.author with | some a => [authorPart a] | none => []) ++
    (match optTruthy md.publish_date with | some d => [publishPart d] | none => []) ++
    (match optTruthy md.description with | some d => [descPart d] | none => [])
  let parts := if parts.isEmpty then parts else parts ++ [sepLine]
  let parts := parts ++ [(⟨content⟩ : String)]
  let parts :=
    match cm with
    | some m => parts ++ [extractedPart m.element_type, statsPart m.word_count m.paragraph_count]
    | none => parts
  ⟨joinWith ['\n'] (parts.map String.data)⟩

/-! ## `scrape_article` (lines 459–573) -/

structure ScrapeResult where
  result : String
  cache : Cache
  requests : Nat

/-- The content-type gate of `scrape_article` (lines 488–491):
`'text/html' not in response.headers.get('content-type', '').lower()` —
a substring test on the lowercased header value. -/
def contentTypeOk (ct : String) : Bool :=
  containsSeq "text/html".data (lowerChars ct.data)

/-- Formalization of the spec's words for claim C9: the MIME type's primary
part of a Content-Type header value — everything before the first `;`,
trimmed and lowercased.  This is the spec-side reading, to be compared with
`contentTypeOk`, which is what the code actually computes. -/
def mimePrimary (ct : String) : String :=
  ⟨pyStrip ((lowerChars ct.data).takeWhile (· ≠ ';'))⟩

/-- Classification of a caught `HTTPError` (lines 560–571). -/
def classifyHTTPError (status : Nat) : String :=
  if status = 403 then msg403
  else if status = 404 then msg404
  else if status = 429 then msg429
  else if 500 ≤ status then msg5xx status
  else msgHTTPOther status

/-- The `except` clauses (lines 556–573), in source order: `Timeout`,
`ConnectionError`, `HTTPError`, then the catch-all `except Exception`. -/
def handleExc : PyExc → String
  | .timeout => msgTimeout
  | .connError => msgConn
  | .httpError s => classifyHTTPError s
  | .otherReq m => msgUnexpected m

/-- The body of the `try:` block from the fetch onwards, with its handlers
applied.  `get_random_headers` only randomizes headers and sleeps; neither
influences anything modelled. -/
def scrapeFetch (cache : Cache) (env : ScrapeEnv) (key : String) : ScrapeResult :=
  let fr := fetchLoop env
  match fr.outcome with
  | .error e => ⟨handleExc e, cache, fr.requests⟩
  | .ok resp =>
    let ct : String := ⟨lowerChars resp.contentType.data⟩
    if !contentTypeOk resp.contentType then
      ⟨msgInvalidContentType ct, cache, fr.requests⟩
    else
      let soup := sanitize resp.soup
      let md := extract_comprehensive_metadata soup
      let ext := advanced_content_extraction soup
      if ext.1.length < 150 then ⟨msgInsufficient, cache, fr.requests⟩
      else
        let final := formatResult md ext.1 ext.2
        ⟨final, cacheInsert cache key env.nowWrite final, fr.requests⟩

/-- `WebScraper.scrape_article` (lines 459–573).  Returns the result
string, the cache after the call, and the number of `session.get` calls
issued. -/
def scrape_article (cache : Cache) (env : ScrapeEnv) (url : String) : ScrapeResult :=
  if !is_valid_url url then ⟨msgInvalidURL, cache, 0⟩
  else
    let key := urlHash url
    match cacheFind cache key with
    | some tc =>
      if env.nowCheck - tc.1 < 3600 then ⟨msgCachedPrefix ++ tc.2, cache, 0⟩
      else scrapeFetch cache env key
    | none => scrapeFetch cache env key

/-! ## Concrete fixtures used by the claim theorems -/

/-- A document whose `<article>` holds one 300-character paragraph: every
fetch of it extracts successfully. -/
def docOK : Node :=
  .elem 0 "[document]" [] [
    .elem 1 "html" [] [
      .elem 2 "body" [] [
        .elem 3 "article" [] [
          .elem 4 "p" [] [.text ⟨List.replicate 300 'a'⟩]]]]]

def urlA : String := "http://example.com/a"

/-- Network that always times out. -/
def envNoNet : ScrapeEnv := ⟨fun _ => .exc .timeout, 0, 0⟩

/-- Network always answering 404 (as a received HTTP response). -/
def env404 : ScrapeEnv := ⟨fun _ => .ok ⟨404, "text/html", .text ""⟩, 0, 0⟩

/-- Network always answering 200 / `text/html` with `docOK`. -/
def envOK : ScrapeEnv :=
  ⟨fun _ => .ok ⟨200, "text/html; charset=utf-8", docOK⟩, 1000, 1005⟩

def respPdf : HttpResponse := ⟨200, "application/pdf", .text ""⟩
def envPdf : ScrapeEnv := ⟨fun _ => .ok respPdf, 0, 0⟩

/-- A `text/html`-containing header whose MIME primary part is not
`text/html`, served with the extractable `docOK`. -/
def envC9 : ScrapeEnv := ⟨fun _ => .ok ⟨200, "xtext/html", docOK⟩, 0, 5⟩

/-- A document with a `div` containing a `nav`: the length-heuristic
strategy decomposes the `nav`. -/
def TC2 : Node :=
  .elem 0 "[document]" [] [
    .elem 1 "div" [] [
      .elem 2 "nav" [] [.text "menu items here"],
      .text "hello body text"]]

/-- Fixture pieces for claim C5: a document on which only the text-density
strategy yields a candidate longer than 200 characters — and that
candidate's score is `int(density * 100) = 0`: the attribute bloat pushes
the density of the only candidate `div` below `0.01` (201 text characters
against 20229 serialized characters), while the link-heavy, period-free
text keeps the other three strategies at score 0 with no candidate. -/
def asStr : String := ⟨List.replicate 201 'a'⟩

def tc5a : Node := .elem 2 "a" [] [.text asStr]

/-- A `div` whose only text is a 201-character link but whose markup is
bloated by an `m`-character attribute value, driving the text density
below 1%. -/
def zsStrM (m : Nat) : String := ⟨List.replicate m 'z'⟩

def tc5divM (m : Nat) : Node := .elem 1 "div" [("data-x", zsStrM m)] [tc5a]

def TC5M (m : Nat) : Node := .elem 0 "[document]" [] [tc5divM m]

def zsStr : String := zsStrM 20000

def tc5div : Node := tc5divM 20000

def TC5 : Node := TC5M 20000

/-- Network serving `TC5M m` as a `text/html` page. -/
def envC5M (m : Nat) : ScrapeEnv := ⟨fun _ => .ok ⟨200, "text/html", TC5M m⟩, 0, 5⟩

def envC5 : ScrapeEnv := envC5M 20000

/-- Hit-window second-call environment for the TTL witness. -/
def envW2 : ScrapeEnv := ⟨fun _ => .exc .timeout, 1500, 1500⟩

/-- One-entry cache holding `urlA` written at time 1000. -/
def cacheB : Cache := [(urlA, (1000, "B"))]

/-- A read at time 2000: inside the TTL window of `cacheB`. -/
def envHit : ScrapeEnv := ⟨fun _ => .exc .timeout, 2000, 2000⟩

/-- Test harness: fold `cacheInsert` over a list of `(key, ts, value)`
triples, in order. -/
def insertAll (ps : List (String × ℚ × String)) (c : Cache) : Cache :=
  ps.foldl (fun c p => cacheInsert c p.1 p.2.1 p.2.2) c

/-- 51 distinct keys `"k"`, `"kk"`, …, inserted at increasing times. -/
def c7keys : List (String × ℚ × String) :=
  (List.range 51).map fun i => (⟨List.replicate (i + 1) 'k'⟩, ((i : ℚ), "v"))

/-- A full 50-entry cache with timestamps `1, …, 50`. -/
def c7cache50 : Cache :=
  (List.range 50).map fun i => (⟨List.replicate (i + 1) 'k'⟩, ((i : ℚ) + 1, "v"))

/-- Verification predicate: every all-whitespace infix holds at most two
newlines (the shape `collapseNLRuns` leaves behind). -/
def wsRunsOK (l : List Char) : Prop :=
  ∀ r, r <:+: l → (∀ c ∈ r, isPyWs c = true) → r.count '\n' ≤ 2

/-- Drop the leading and trailing empty lines (the line-level effect of the
final `strip()`). -/
def trimEmpties (ls : List (List Char)) : List (List Char) :=
  ((ls.dropWhile (· = [])).reverse.dropWhile (· = [])).reverse

/-- The character-stage pipeline of `enhanced_text_cleaning`: everything
before the line split (regex substitutions of web_scraper.py lines 355–368). -/
def charStages (l : List Char) : List Char :=
  capPunct '.' 4 (capPunct '?' 3 (capPunct '!' 3
    (stripSpacesAroundNL (collapseNLRuns (collapseSpaces (tabsToSpaces
      (normNewlines l)))))))

/-! # Claim theorems -/

/-! ## Claim C1 -/

/-- **C1 (counterexample).**  The claim: an HTTP error status received as a
successful HTTP response is never retried but classified and surfaced
immediately — which would mean a single `session.get` and no backoff sleep.
In the code, `raise_for_status()` turns the 404 into an `HTTPError`, a
subclass of `RequestException`, which the loop's `except` clause catches
exactly like a transport failure: with every attempt answering 404, three
requests are issued with sleeps `2^0` and `2^1` before the error is
classified. -/
theorem C1_counterexample :
    (fetchLoop env404).requests = 3 ∧ (fetchLoop env404).sleeps = [1, 2] ∧
      (fetchLoop env404).outcome = .error (.httpError 404) ∧
      (fetchLoop env404).requests ≠ 1 := by
  refine ⟨rfl, rfl, rfl, ?_⟩
  intro h
  rw [show (fetchLoop env404).requests = 3 from rfl] at h
  cases h

/-- **C1 (amended).**  Any exception on an attempt — a transport failure or
an `HTTPError` produced by `raise_for_status` from a received HTTP error
status — is retried: after a failed first attempt the loop sleeps `2^0`
and issues another request; at most 3 requests are made; and when all
three attempts fail the third exception is the one surfaced, after backoff
sleeps `2^0` and `2^1`. -/
theorem C1_retries_any_request_exception (env : ScrapeEnv) (e : PyExc)
    (h0 : attemptResult env 0 = .error e) :
    1 < (fetchLoop env).requests ∧ (fetchLoop env).sleeps.head? = some 1 ∧
      (fetchLoop env).requests ≤ 3 ∧
      (∀ e2 : PyExc, attemptResult env 2 = .error e2 →
        isOkB (attemptResult env 1) = false →
        (fetchLoop env).outcome = .error e2 ∧ (fetchLoop env).sleeps = [1, 2]) := by
  unfold fetchLoop
  rw [h0]
  cases h1 : attemptResult env 1 with
  | ok r =>
    refine ⟨by simp, by simp, by simp, ?_⟩
    intro e2 _ hko
    simp [isOkB] at hko
  | error e1 =>
    cases h2 : attemptResult env 2 with
    | ok r =>
      refine ⟨by simp, by simp, by simp, ?_⟩
      intro e2 he2 _
      simp at he2
    | error e2 =>
      refine ⟨by simp, by simp, by simp, ?_⟩
      intro e2' he2 _
      cases he2
      exact ⟨rfl, rfl⟩

/-- Witness for C1: the 404 environment. -/
theorem C1_witness :
    attemptResult env404 0 = .error (.httpError 404) ∧ 1 < (fetchLoop env404).requests :=
  ⟨rfl, (C1_retries_any_request_exception env404 (.httpError 404) rfl).1⟩

/-! ## Claim C4 -/

/-- **C4.**  A URL failing `is_valid_url` — scheme not http/https, empty
host, a `javascript:`/`data:`/`file:` pattern, non-ASCII characters, or an
unparseable netloc — makes `scrape_article` return the `InvalidURL`
message at once, with the cache untouched and zero `session.get` calls. -/
theorem C4_invalid_url_no_fetch (cache : Cache) (env : ScrapeEnv) (url : String)
    (h : is_valid_url url = false) :
    scrape_article cache env url = ⟨msgInvalidURL, cache, 0⟩ := by
  unfold scrape_article
  rw [h]
  rfl

/-- Witness for C4 at `ftp://x` (wrong scheme). -/
theorem C4_witness :
    is_valid_url "ftp://x" = false ∧
      scrape_article [] envNoNet "ftp://x" = ⟨msgInvalidURL, [], 0⟩ :=
  ⟨by decide, C4_invalid_url_no_fetch [] envNoNet "ftp://x" (by decide)⟩

/-! ## Claim C9 -/

theorem containsSeq_iff (pat : List Char) :
    ∀ l : List Char, containsSeq pat l = true ↔ pat <:+: l := by
  intro l
  induction l with
  | nil =>
    simp only [containsSeq, decide_eq_true_eq, List.infix_nil]
  | cons c t ih =>
    simp only [containsSeq, Bool.or_eq_true, List.isPrefixOf_iff_prefix, ih,
      List.infix_cons_iff]

theorem pyStrip_isInfix (l : List Char) : pyStrip l <:+: l := by
  unfold pyStrip
  have h1 : l.dropWhile isPyWs <:+ l := List.dropWhile_suffix _
  have h2 : (l.dropWhile isPyWs).reverse.dropWhile isPyWs <:+
      (l.dropWhile isPyWs).reverse := List.dropWhile_suffix _
  have h3 : ((l.dropWhile isPyWs).reverse.dropWhile isPyWs).reverse <+:
      l.dropWhile isPyWs := by
    have := List.reverse_prefix.mpr h2
    simpa using this
  exact h3.isInfix.trans h1.isInfix

/-- **C9 (counterexample).**  The claim: a response is rejected with
`UnsupportedContentType` exactly when the Content-Type's MIME primary part
is not `text/html`.  The code instead performs a substring test, so the
header `xtext/html` — whose primary part is `xtext/html`, not `text/html`
— is accepted and extraction proceeds to a successful, cached result. -/
theorem C9_counterexample :
    mimePrimary "xtext/html" ≠ "text/html" ∧
      contentTypeOk "xtext/html" = true ∧
      (scrape_article [] envC9 urlA).cache.length = 1 ∧
      (scrape_article [] envC9 urlA).result ≠ msgInvalidContentType "xtext/html" :=
  ⟨by decide, by decide, by with_unfolding_all rfl, by with_unfolding_all decide⟩

/-- **C9 (amended).**  For a successfully received response the code
rejects with the `UnsupportedContentType` message exactly when the
lowercased Content-Type header does not contain `text/html` as a
substring.  One direction of the claim survives: a header whose MIME
primary part is `text/html` always contains the substring, so genuine
`text/html` responses are never rejected.  The other direction fails
(see the counterexample). -/
theorem C9_amended (cache : Cache) (env : ScrapeEnv) (key : String) (resp : HttpResponse)
    (h0 : env.attempts 0 = .ok resp) (hst : resp.status < 400) :
    (contentTypeOk resp.contentType = false →
        (scrapeFetch cache env key).result =
          msgInvalidContentType ⟨lowerChars resp.contentType.data⟩) ∧
    (mimePrimary resp.contentType = "text/html" → contentTypeOk resp.contentType = true) := by
  have ha : attemptResult env 0 = .ok resp := by
    unfold attemptResult
    rw [h0]
    have hs : ¬(400 ≤ resp.status ∧ resp.status < 600) := by omega
    simp [hs]
  constructor
  · intro hct
    unfold scrapeFetch fetchLoop
    rw [ha]
    simp [hct]
  · intro hmp
    unfold contentTypeOk
    have hdata : pyStrip ((lowerChars resp.contentType.data).takeWhile (· ≠ ';')) =
        "text/html".data := congrArg String.data hmp
    refine (containsSeq_iff _ _).mpr ?_
    calc "text/html".data
        = pyStrip ((lowerChars resp.contentType.data).takeWhile (· ≠ ';')) := hdata.symm
      _ <:+: (lowerChars resp.contentType.data).takeWhile (· ≠ ';') := pyStrip_isInfix _
      _ <:+: lowerChars resp.contentType.data := (List.takeWhile_prefix _).isInfix

/-- Witness for C9 (amended): an `application/pdf` response is rejected;
a `text/html; charset=utf-8` header passes the gate. -/
theorem C9_witness :
    (scrapeFetch [] envPdf "k").result =
        msgInvalidContentType ⟨lowerChars respPdf.contentType.data⟩ ∧
      contentTypeOk "text/html; charset=utf-8" = true :=
  ⟨(C9_amended [] envPdf "k" respPdf rfl (by decide)).1 (by decide),
   (C9_amended [] envOK "k" ⟨200, "text/html; charset=utf-8", docOK⟩ rfl (by decide)).2
     (by decide)⟩

/-! ## Claim C2 -/

theorem removeTags_sub (tags : List String) (n : Node) :
    List.Sublist (elemIdTags (removeTags tags n)) (elemIdTags n) := by
  refine @Node.rec
    (motive_1 := fun n => List.Sublist (elemIdTags (removeTags tags n)) (elemIdTags n))
    (motive_2 := fun l => List.Sublist (elemIdTagsL (removeTagsL tags l)) (elemIdTagsL l))
    ?_ ?_ ?_ ?_ n
  · intro s
    simp [removeTags, elemIdTags]
  · intro i g a cs ih
    simp only [removeTags, elemIdTags]
    exact ih.cons₂ _
  · simp [removeTagsL]
  · intro hd tl ih1 ih2
    cases hd with
    | text s => simpa [removeTagsL, elemIdTagsL, elemIdTags] using ih2
    | elem i g a cs =>
      by_cases hg : tags.contains g
      · simp only [removeTagsL, hg, if_true, elemIdTagsL]
        exact ih2.trans (List.sublist_append_right _ _)
      · simp only [removeTagsL, hg, if_false, elemIdTagsL]
        exact List.Sublist.append ih1 ih2

theorem mapAtId_sub (i : Nat) (f : Node → Node)
    (hf : ∀ m : Node, List.Sublist (elemIdTags (f m)) (elemIdTags m)) (n : Node) :
    List.Sublist (elemIdTags (mapAtId i f n)) (elemIdTags n) := by
  refine @Node.rec
    (motive_1 := fun n => List.Sublist (elemIdTags (mapAtId i f n)) (elemIdTags n))
    (motive_2 := fun l => List.Sublist (elemIdTagsL (mapAtIdL i f l)) (elemIdTagsL l))
    ?_ ?_ ?_ ?_ n
  · intro s
    simp [mapAtId]
  · intro j g a cs ih
    simp only [mapAtId]
    by_cases hj : j = i
    · simp only [hj, if_true]
      exact hf _
    · simp only [hj, if_false, elemIdTags]
      exact ih.cons₂ _
  · simp [mapAtIdL]
  · intro hd tl ih1 ih2
    simp only [mapAtIdL, elemIdTagsL]
    exact List.Sublist.append ih1 ih2

theorem lengthHeurStep_sub (st : Node × Option Nat × ℚ) (i : Nat) :
    List.Sublist (elemIdTags (lengthHeurStep st i).1) (elemIdTags st.1) := by
  have base : List.Sublist
      (elemIdTags (mapAtId i (removeTags ["nav", "aside", "footer", "header"]) st.1))
      (elemIdTags st.1) :=
    mapAtId_sub i _ (fun m => removeTags_sub _ m) st.1
  unfold lengthHeurStep
  split
  · exact List.Sublist.refl _
  · dsimp only
    split
    · exact base
    · split <;> split <;> exact base

theorem foldl_lengthHeur_sub (ids : List Nat) :
    ∀ st : Node × Option Nat × ℚ,
      List.Sublist (elemIdTags (ids.foldl lengthHeurStep st).1) (elemIdTags st.1) := by
  induction ids with
  | nil => intro st; exact List.Sublist.refl _
  | cons i t ih => intro st; exact (ih _).trans (lengthHeurStep_sub st i)

/-- **C2 (amended).**  Of the four strategies, the semantic, text-density
and readability strategies contain no mutating operation (their embeddings
read the tree and return only a candidate), but the length-heuristic
strategy destructively decomposes `nav`/`aside`/`footer`/`header`
descendants of its candidates inside the shared tree, which the density
and readability strategies then observe (`runStrategies`).  Its effect on
the tree is pure deletion: the document-order `(id, tag)` listing of the
returned tree is a sublist of the original's — no element is added,
renamed or reordered. -/
theorem C2_amended (soup : Node) :
    List.Sublist (elemIdTags (extract_by_length_heuristics soup).1) (elemIdTags soup) := by
  have h := foldl_lengthHeur_sub
    ((findAll (tagIn ["div", "section", "article", "main"]) soup).filterMap Node.idOf?)
    (soup, none, 0)
  unfold extract_by_length_heuristics
  dsimp only
  split
  · split
    · exact h
    · exact h
  · exact h

/-- **C2 (counterexample).**  Running the length-heuristic strategy does
not leave the tree it receives unchanged: on `TC2` it removes the `nav`
element, so the claim that every strategy is a pure function of the tree —
and that execution order can matter only for tie-breaking — fails. -/
theorem C2_counterexample :
    (findAll (tagIn ["nav"]) (extract_by_length_heuristics TC2).1).length = 0 ∧
      (findAll (tagIn ["nav"]) TC2).length = 1 ∧
      (extract_by_length_heuristics TC2).1 ≠ TC2 := by
  refine ⟨by with_unfolding_all rfl, rfl, ?_⟩
  intro h
  have h0 : (findAll (tagIn ["nav"]) (extract_by_length_heuristics TC2).1).length = 0 := by
    with_unfolding_all rfl
  rw [h] at h0
  have h1 : (findAll (tagIn ["nav"]) TC2).length = 1 := rfl
  rw [h1] at h0
  cases h0

/-! ## Claim C5 -/

theorem selectBest_go_le (rs : List StratOut) :
    ∀ st : List Char × ℚ × Option ElemMeta,
      (∀ r ∈ rs, 200 < r.content.length → r.score ≤ st.2.1) →
      rs.foldl selectStep st = st := by
  induction rs with
  | nil => intro st _; rfl
  | cons a t ih =>
    intro st h
    have ha : selectStep st a = st := by
      unfold selectStep
      have hna : ¬(st.2.1 < a.score ∧ 200 < a.content.length) := by
        rintro ⟨h1, h2⟩
        exact absurd h1 (not_lt.mpr (h a (List.mem_cons_self a t) h2))
      simp [hna]
    rw [List.foldl_cons, ha]
    exact ih st fun r hr hq => h r (List.mem_cons_of_mem _ hr) hq

theorem selectBest_go_char (rs : List StratOut) :
    ∀ st : List Char × ℚ × Option ElemMeta,
      (∃ q ∈ rs, 200 < q.content.length ∧ st.2.1 < q.score) →
      ∃ pre r post, rs = pre ++ r :: post ∧ 200 < r.content.length ∧ st.2.1 < r.score ∧
        (∀ q ∈ pre, 200 < q.content.length → q.score < r.score) ∧
        (∀ q ∈ post, 200 < q.content.length → q.score ≤ r.score) ∧
        rs.foldl selectStep st = (r.content, r.score, r.meta) := by
  induction rs with
  | nil =>
    rintro st ⟨q, hq, -⟩
    cases hq
  | cons a t ih =>
    intro st hex
    by_cases hbeat : st.2.1 < a.score ∧ 200 < a.content.length
    · have hstep : selectStep st a = (a.content, a.score, a.meta) := by
        unfold selectStep
        simp [hbeat]
      by_cases hrest : ∃ q ∈ t, 200 < q.content.length ∧ a.score < q.score
      · obtain ⟨pre, r, post, heq, hql, hlt, hpre, hpost, hres⟩ :=
          ih (a.content, a.score, a.meta) (by simpa using hrest)
        refine ⟨a :: pre, r, post, by rw [heq]; rfl, hql, lt_trans hbeat.1 hlt, ?_, hpost, ?_⟩
        · intro q hq hqlen
          rcases List.mem_cons.mp hq with rfl | hq'
          · exact hlt
          · exact hpre q hq' hqlen
        · rw [List.foldl_cons, hstep]
          exact hres
      · push_neg at hrest
        have hfix : t.foldl selectStep (a.content, a.score, a.meta) =
            (a.content, a.score, a.meta) :=
          selectBest_go_le t _ fun r hr hq => hrest r hr hq
        exact ⟨[], a, t, rfl, hbeat.2, hbeat.1, by simp, fun q hq hqlen => hrest q hq hqlen,
          by rw [List.foldl_cons, hstep, hfix]⟩
    · have hstep : selectStep st a = st := by
        unfold selectStep
        simp only [ite_eq_right_iff]
        intro hcon
        exact absurd hcon hbeat
      obtain ⟨q, hq, hql, hqs⟩ := hex
      have hqt : q ∈ t := by
        rcases List.mem_cons.mp hq with rfl | h'
        · exact absurd ⟨hqs, hql⟩ hbeat
        · exact h'
      obtain ⟨pre, r, post, heq, hql', hlt, hpre, hpost, hres⟩ := ih st ⟨q, hqt, hql, hqs⟩
      refine ⟨a :: pre, r, post, by rw [heq]; rfl, hql', hlt, ?_, hpost, ?_⟩
      · intro q' hq' hq'len
        rcases List.mem_cons.mp hq' with rfl | h'
        · have hle : ¬ st.2.1 < q'.score := fun hlt' => hbeat ⟨hlt', hq'len⟩
          exact lt_of_le_of_lt (not_lt.mp hle) hlt
        · exact hpre q' h' hq'len
      · rw [List.foldl_cons, hstep]
        exact hres

theorem selectBest_len_inv (rs : List StratOut) :
    ∀ st : List Char × ℚ × Option ElemMeta,
      (st.1 = [] ∨ 200 < st.1.length) →
      ((rs.foldl selectStep st).1 = [] ∨ 200 < (rs.foldl selectStep st).1.length) := by
  induction rs with
  | nil => intro st h; exact h
  | cons a t ih =>
    intro st h
    rw [List.foldl_cons]
    refine ih _ ?_
    unfold selectStep
    split
    · right
      exact (by assumption : _ ∧ 200 < a.content.length).2
    · exact h

/-- **C5 (amended).**  The selection loop starts from `best_score = 0` and
updates on a strict `>`, so the winner is the first strategy output whose
cleaned text exceeds 200 characters and whose score is maximal among such
outputs — provided that maximal score is positive.  A qualifying candidate
with score 0 (reachable: the density strategy truncates `density * 100` to
an int) can never be selected, and when no qualifying candidate has a
positive score the loop keeps the empty `best_content`, which the caller
then reports as `InsufficientContent`.  A selected body always exceeds 200
characters. -/
theorem C5_selection_rule (rs : List StratOut) :
    ((∀ r ∈ rs, 200 < r.content.length → r.score ≤ 0) → selectBest rs = ([], none)) ∧
    ((∃ r ∈ rs, 200 < r.content.length ∧ 0 < r.score) →
      ∃ pre r post, rs = pre ++ r :: post ∧ 200 < r.content.length ∧ 0 < r.score ∧
        selectBest rs = (r.content, r.meta) ∧
        (∀ q ∈ pre, 200 < q.content.length → q.score < r.score) ∧
        (∀ q ∈ rs, 200 < q.content.length → q.score ≤ r.score)) ∧
    ((selectBest rs).1 = [] ∨ 200 < (selectBest rs).1.length) := by
  refine ⟨?_, ?_, ?_⟩
  · intro h
    unfold selectBest
    rw [selectBest_go_le rs ([], 0, none) fun r hr hq => h r hr hq]
  · intro hex
    obtain ⟨pre, r, post, heq, hql, hpos, hpre, hpost, hres⟩ :=
      selectBest_go_char rs ([], 0, none) hex
    refine ⟨pre, r, post, heq, hql, hpos, ?_, hpre, ?_⟩
    · unfold selectBest
      rw [hres]
    · intro q hq hqlen
      rw [heq] at hq
      rcases List.mem_append.mp hq with hq' | hq'
      · exact le_of_lt (hpre q hq' hqlen)
      · rcases List.mem_cons.mp hq' with rfl | hq''
        · exact le_refl _
        · exact hpost q hq'' hqlen
  · exact selectBest_len_inv rs ([], 0, none) (Or.inl rfl)

/-- Witness for C5 (amended): the empty strategy list selects nothing, and
the singleton qualifying positive-score output is selected. -/
theorem C5_witness :
    selectBest [] = ([], none) ∧
      (∃ pre r post,
        [(⟨List.replicate 201 'a', none, 5⟩ : StratOut)] = pre ++ r :: post ∧
        200 < r.content.length ∧ 0 < r.score ∧
        selectBest [(⟨List.replicate 201 'a', none, 5⟩ : StratOut)] = (r.content, r.meta) ∧
        (∀ q ∈ pre, 200 < q.content.length → q.score < r.score) ∧
        (∀ q ∈ [(⟨List.replicate 201 'a', none, 5⟩ : StratOut)],
          200 < q.content.length → q.score ≤ r.score)) :=
  ⟨(C5_selection_rule []).1 (by simp),
   (C5_selection_rule [⟨List.replicate 201 'a', none, 5⟩]).2.1
     ⟨⟨List.replicate 201 'a', none, 5⟩, List.mem_cons_self _ _,
      by rw [show (⟨List.replicate 201 'a', none, 5⟩ : StratOut).content =
          List.replicate 201 'a' from rfl, List.length_replicate]; norm_num,
      by norm_num⟩⟩

theorem density_singleton (soup e : Node) (n m : Nat)
    (hfa : findAll (tagIn ["div", "section", "article"]) soup = [e])
    (hn : (getText e).length = n) (hm : (render e).length = m)
    (hm0 : m ≠ 0)
    (htag : ¬(e.tagOf? = some "article" ∨ e.tagOf? = some "section"))
    (hcls : classTokens e = [])
    (hq : 0 < (n : ℚ) / (m : ℚ)) (hlen : 200 < n) :
    extract_by_text_density soup =
      ⟨cleanChars (getText e), some (extract_element_metadata e),
        (((n : ℚ) / (m : ℚ) * 100).floor : ℚ)⟩ := by
  unfold extract_by_text_density
  rw [hfa]
  simp only [List.foldl_cons, List.foldl_nil, hn, hm]
  rw [if_neg hm0]
  have h2 : (["content", "article", "post", "story"].any fun w =>
      containsSeq w.data (lowerChars (joinWith [' '] (List.map String.data
        (classTokens e))))) = false := by
    rw [hcls]
    decide
  simp only [h2, htag, if_false, Bool.false_eq_true, if_neg, ite_false]
  rw [if_pos ⟨hq, hlen⟩]

theorem scrapeFetch_insufficient (cache : Cache) (env : ScrapeEnv) (key : String)
    (resp : HttpResponse)
    (hloop : fetchLoop env = ⟨.ok resp, [], 1⟩)
    (hct : contentTypeOk resp.contentType = true)
    (hshort : (advanced_content_extraction (sanitize resp.soup)).1.length < 150) :
    scrapeFetch cache env key = ⟨msgInsufficient, cache, 1⟩ := by
  unfold scrapeFetch
  rw [hloop]
  dsimp only
  rw [hct]
  simp only [Bool.not_true, Bool.false_eq_true, if_false]
  rw [if_pos hshort]

theorem scrape_article_uncached (cache : Cache) (env : ScrapeEnv) (url : String)
    (hvalid : is_valid_url url = true)
    (hmiss : cacheFind cache (urlHash url) = none) :
    scrape_article cache env url = scrapeFetch cache env (urlHash url) := by
  unfold scrape_article
  rw [hvalid]
  simp only [Bool.not_true, Bool.false_eq_true, if_false]
  rw [hmiss]

theorem lh_skip (soup e : Node) (i : Nat)
    (hids : (findAll (tagIn ["div", "section", "article", "main"]) soup).filterMap
      Node.idOf? = [i])
    (htree : mapAtId i (removeTags ["nav", "aside", "footer", "header"]) soup = soup)
    (hfid : findId i soup = some e)
    (htl : (getText e).length = 201)
    (hps : findAll (tagIn ["p"]) e = [])
    (hlk : (findAll (tagIn ["a"]) e).map (fun a => (getText a).length) = [201]) :
    extract_by_length_heuristics soup = (soup, ⟨[], none, 0⟩) := by
  have hstep : lengthHeurStep (soup, none, 0) i = (soup, none, 0) := by
    unfold lengthHeurStep
    dsimp only
    rw [hfid, htree, hfid]
    simp only [htl, hps, hlk]
    norm_num
  unfold extract_by_length_heuristics
  rw [hids]
  simp only [List.foldl_cons, List.foldl_nil, hstep]

theorem readability_skip (soup e : Node)
    (hfa : findAll (tagIn ["div", "section", "article", "main"]) soup = [e])
    (hlen : ¬((getText e).length < 100))
    (hsent : (getText e).count '.' + (getText e).count '!' + (getText e).count '?' = 0) :
    extract_readability_content soup = ⟨[], none, 0⟩ := by
  unfold extract_readability_content
  rw [hfa]
  simp only [List.foldl_cons, List.foldl_nil]
  rw [if_neg hlen, if_pos (Or.inl hsent)]

theorem semantic_empty (soup : Node)
    (h1 : select (.simple (.tag "article")) soup = [])
    (h2 : select (.desc (.tag "main") (.tag "article")) soup = [])
    (h3 : select (.desc (.attrEq "role" "main") (.tag "article")) soup = [])
    (h4 : select (.simple (.tagClass "div" "article-content")) soup = [])
    (h5 : select (.simple (.tagClass "div" "post-content")) soup = [])
    (h6 : select (.simple (.tagClass "div" "entry-content")) soup = [])
    (h7 : select (.simple (.attrEq "itemprop" "articleBody")) soup = [])
    (h8 : select (.simple (.tag "main")) soup = [])
    (h9 : select (.simple (.attrEq "role" "main")) soup = []) :
    extract_semantic_content soup = ⟨[], none, 0⟩ := by
  unfold extract_semantic_content semanticSelectors
  simp only [List.foldl_cons, List.foldl_nil, h1, h2, h3, h4, h5, h6, h7, h8, h9]

theorem tc5M_gt (m : Nat) : getText (tc5divM m) = List.replicate 201 'a' := by
  with_unfolding_all rfl

theorem tc5M_gtlen (m : Nat) : (getText (tc5divM m)).length = 201 := by
  rw [tc5M_gt m, List.length_replicate]

theorem tc5M_lh (m : Nat) :
    extract_by_length_heuristics (TC5M m) = (TC5M m, ⟨[], none, 0⟩) :=
  lh_skip (TC5M m) (tc5divM m) 1
    (by with_unfolding_all rfl) (by with_unfolding_all rfl) (by with_unfolding_all rfl)
    (tc5M_gtlen m) (by with_unfolding_all rfl) (by with_unfolding_all rfl)

theorem tc5M_sem (m : Nat) : extract_semantic_content (TC5M m) = ⟨[], none, 0⟩ :=
  semantic_empty (TC5M m)
    (by with_unfolding_all rfl) (by with_unfolding_all rfl) (by with_unfolding_all rfl)
    (by with_unfolding_all rfl) (by with_unfolding_all rfl) (by with_unfolding_all rfl)
    (by with_unfolding_all rfl) (by with_unfolding_all rfl) (by with_unfolding_all rfl)

theorem tc5M_read (m : Nat) : extract_readability_content (TC5M m) = ⟨[], none, 0⟩ :=
  readability_skip (TC5M m) (tc5divM m)
    (by with_unfolding_all rfl)
    (by rw [tc5M_gtlen m]; norm_num)
    (by rw [tc5M_gt m]; with_unfolding_all rfl)

theorem tc5M_san (m : Nat) : sanitize (TC5M m) = TC5M m := by
  with_unfolding_all rfl

theorem tc5M_fa (m : Nat) :
    findAll (tagIn ["div", "section", "article"]) (TC5M m) = [tc5divM m] := by
  with_unfolding_all rfl

theorem tc5M_render_len (m : Nat) : (render (tc5divM m)).length = m + 229 := by
  rw [show render (tc5divM m) =
    '<' :: ("div".data ++ renderAttrs [("data-x", zsStrM m)] ++
      '>' :: renderL [tc5a] ++ '<' :: '/' :: "div".data ++ ['>']) from rfl]
  rw [show renderAttrs [("data-x", zsStrM m)] =
    ' ' :: ("data-x".data ++ '=' :: '"' :: (zsStrM m).data ++ '"' :: renderAttrs []) from rfl]
  rw [show (zsStrM m).data = List.replicate m 'z' from rfl]
  rw [show renderL [tc5a] = render tc5a ++ renderL [] from rfl]
  rw [show render tc5a = '<' :: ("a".data ++ renderAttrs [] ++
    '>' :: renderL [.text asStr] ++ '<' :: '/' :: "a".data ++ ['>']) from rfl]
  rw [show renderL [.text asStr] = asStr.data ++ renderL [] from rfl]
  rw [show asStr.data = List.replicate 201 'a' from rfl]
  rw [show renderAttrs [] = [] from rfl, show renderL [] = [] from rfl]
  rw [show "div".data = ['d', 'i', 'v'] from rfl,
      show "data-x".data = ['d', 'a', 't', 'a', '-', 'x'] from rfl,
      show "a".data = ['a'] from rfl]
  simp only [List.length_cons, List.length_append, List.length_replicate, List.length_nil]
  omega

theorem tc5M_den (m : Nat) : extract_by_text_density (TC5M m) =
    ⟨cleanChars (getText (tc5divM m)), some (extract_element_metadata (tc5divM m)),
      ((((201 : ℚ) / ((m + 229 : ℕ) : ℚ)) * 100).floor : ℚ)⟩ :=
  density_singleton (TC5M m) (tc5divM m) 201 (m + 229) (tc5M_fa m)
    (tc5M_gtlen m) (tc5M_render_len m) (by omega)
    (by rw [show (tc5divM m).tagOf? = some "div" from rfl]; rintro (h | h) <;> simp at h)
    (by with_unfolding_all rfl)
    (by
      have hpos : (0 : ℚ) < ((m + 229 : ℕ) : ℚ) := by
        exact_mod_cast Nat.pos_of_ne_zero (by omega)
      positivity)
    (by norm_num)

theorem tc5M_clean (m : Nat) :
    cleanChars (getText (tc5divM m)) = List.replicate 201 'a' := by
  rw [tc5M_gt m]
  with_unfolding_all rfl

theorem tc5_denEq : extract_by_text_density (TC5M 20000) =
    ⟨List.replicate 201 'a', some (extract_element_metadata (tc5divM 20000)), 0⟩ := by
  have h := tc5M_den 20000
  rw [tc5M_clean 20000] at h
  rw [show ((((201 : ℚ) / ((20000 + 229 : ℕ) : ℚ)) * 100).floor : ℚ) = 0 from by
    with_unfolding_all decide] at h
  exact h

theorem tc5_dlen : (extract_by_text_density TC5).content.length = 201 := by
  show (extract_by_text_density (TC5M 20000)).content.length = 201
  rw [tc5_denEq, List.length_replicate]

theorem tc5_dscore : (extract_by_text_density TC5).score = 0 := by
  show (extract_by_text_density (TC5M 20000)).score = 0
  rw [tc5_denEq]

theorem tc5_runM : (runStrategies (TC5M 20000)).2 =
    [⟨[], none, 0⟩, ⟨[], none, 0⟩,
      ⟨List.replicate 201 'a', some (extract_element_metadata (tc5divM 20000)), 0⟩,
      ⟨[], none, 0⟩] := by
  show [extract_semantic_content (TC5M 20000), (extract_by_length_heuristics (TC5M 20000)).2,
    extract_by_text_density (extract_by_length_heuristics (TC5M 20000)).1,
    extract_readability_content (extract_by_length_heuristics (TC5M 20000)).1] = _
  rw [tc5M_lh 20000]
  dsimp only
  rw [tc5M_sem 20000, tc5M_read 20000, tc5_denEq]

theorem tc5_selM : (advanced_content_extraction (TC5M 20000)).1 = [] := by
  rw [show advanced_content_extraction (TC5M 20000) =
    selectBest (runStrategies (TC5M 20000)).2 from rfl, tc5_runM]
  with_unfolding_all rfl

theorem tc5_floop : fetchLoop envC5 = ⟨.ok ⟨200, "text/html", TC5M 20000⟩, [], 1⟩ := by
  with_unfolding_all rfl

theorem tc5_fetch : scrapeFetch [] envC5 (urlHash urlA) = ⟨msgInsufficient, [], 1⟩ :=
  scrapeFetch_insufficient [] envC5 (urlHash urlA) ⟨200, "text/html", TC5M 20000⟩
    tc5_floop (by decide)
    (by
      rw [show sanitize (HttpResponse.mk 200 "text/html" (TC5M 20000)).soup = TC5M 20000 from
        tc5M_san 20000]
      rw [tc5_selM]
      norm_num)

theorem tc5_scrape : (scrape_article [] envC5 urlA).result = msgInsufficient := by
  rw [scrape_article_uncached [] envC5 urlA (by decide) rfl, tc5_fetch]

/-- **C5 (counterexample).**  The claim says the selected candidate is the
one with the strictly highest score among candidates longer than 200
characters, and that `InsufficientContent` is returned only when no
strategy yields such a candidate.  On `TC5`, the density strategy (index 2
of the run's outputs) yields a 201-character candidate — a qualifying
candidate exists — yet its truncated score is 0, the loop (which starts
from `best_score = 0`) selects nothing, and the call returns the
`InsufficientContent` message. -/
theorem C5_counterexample :
    (runStrategies TC5).2[2]? = some (extract_by_text_density TC5) ∧
      200 < (extract_by_text_density TC5).content.length ∧
      (extract_by_text_density TC5).score = 0 ∧
      (advanced_content_extraction TC5).1 = [] ∧
      (scrape_article [] envC5 urlA).result = msgInsufficient := by
  refine ⟨?_, ?_, tc5_dscore, tc5_selM, tc5_scrape⟩
  · show (runStrategies (TC5M 20000)).2[2]? = some (extract_by_text_density (TC5M 20000))
    rw [tc5_runM, tc5_denEq]
    rfl
  · rw [tc5_dlen]
    norm_num

/-! ## Claim C3 -/

theorem scrapeFetch_cases (cache : Cache) (env : ScrapeEnv) (key : String) :
    (∃ e, (scrapeFetch cache env key).result = handleExc e) ∨
    (∃ ct, (scrapeFetch cache env key).result = msgInvalidContentType ct) ∨
    (scrapeFetch cache env key).result = msgInsufficient ∨
    (∃ md c m, (scrapeFetch cache env key).result = formatResult md c m) := by
  unfold scrapeFetch
  dsimp only
  rcases h : (fetchLoop env).outcome with e | resp
  · exact Or.inl ⟨e, rfl⟩
  · by_cases hct : contentTypeOk resp.contentType
    · by_cases hlen :
        (advanced_content_extraction (sanitize resp.soup)).1.length < 150
      · refine Or.inr (Or.inr (Or.inl ?_))
        dsimp only
        simp only [hct, Bool.not_true, Bool.false_eq_true, if_false]
        rw [if_pos hlen]
      · refine Or.inr (Or.inr (Or.inr ⟨extract_comprehensive_metadata (sanitize resp.soup),
          (advanced_content_extraction (sanitize resp.soup)).1,
          (advanced_content_extraction (sanitize resp.soup)).2, ?_⟩))
        dsimp only
        simp only [hct, Bool.not_true, Bool.false_eq_true, if_false]
        rw [if_neg hlen]
    · refine Or.inr (Or.inl ⟨⟨lowerChars resp.contentType.data⟩, ?_⟩)
      dsimp only
      simp only [Bool.not_eq_true] at hct
      simp only [hct, Bool.not_false, if_true]

/-- **C3.**  Every call returns one of the documented result strings: the
invalid-URL message, a cached body behind the cached marker, a handled
transport/HTTP-error message, the content-type rejection, the
insufficient-content message, or a formatted article.  In this embedding
every Python exception the fetch can raise is a `PyExc` value consumed by
`handleExc`, so no failure mode escapes as an exception: the function is
total and always yields a descriptive string. -/
theorem C3_always_returns_message (cache : Cache) (env : ScrapeEnv) (url : String) :
    (scrape_article cache env url).result = msgInvalidURL ∨
    (∃ body, (scrape_article cache env url).result = msgCachedPrefix ++ body) ∨
    (∃ e, (scrape_article cache env url).result = handleExc e) ∨
    (∃ ct, (scrape_article cache env url).result = msgInvalidContentType ct) ∨
    (scrape_article cache env url).result = msgInsufficient ∨
    (∃ md c m, (scrape_article cache env url).result = formatResult md c m) := by
  unfold scrape_article
  by_cases hv : is_valid_url url
  · simp only [hv, Bool.not_true, Bool.false_eq_true, if_false]
    rcases hc : cacheFind cache (urlHash url) with - | tc
    · rcases scrapeFetch_cases cache env (urlHash url) with h | h | h | h
      · exact Or.inr <| Or.inr <| Or.inl h
      · exact Or.inr <| Or.inr <| Or.inr <| Or.inl h
      · exact Or.inr <| Or.inr <| Or.inr <| Or.inr <| Or.inl h
      · exact Or.inr <| Or.inr <| Or.inr <| Or.inr <| Or.inr h
    · by_cases ht : env.nowCheck - tc.1 < 3600
      · refine Or.inr (Or.inl ⟨tc.2, ?_⟩)
        dsimp only
        rw [if_pos ht]
      · dsimp only
        rw [if_neg ht]
        rcases scrapeFetch_cases cache env (urlHash url) with h | h | h | h
        · exact .inr <| .inr <| .inl h
        · exact .inr <| .inr <| .inr <| .inl h
        · exact .inr <| .inr <| .inr <| .inr <| .inl h
        · exact .inr <| .inr <| .inr <| .inr <| .inr h
  · simp only [Bool.not_eq_true] at hv
    simp only [hv, Bool.not_false, if_true]
    exact Or.inl trivial

/-! ## Cache-layer lemmas shared by C8 and C10 -/

theorem scrape_article_hit (cache : Cache) (env : ScrapeEnv) (url : String)
    (ts : ℚ) (body : String)
    (hv : is_valid_url url = true)
    (hc : cacheFind cache (urlHash url) = some (ts, body))
    (ht : env.nowCheck - ts < 3600) :
    scrape_article cache env url = ⟨msgCachedPrefix ++ body, cache, 0⟩ := by
  unfold scrape_article
  rw [hv]
  simp only [Bool.not_true, Bool.false_eq_true, if_false]
  rw [hc]
  dsimp only
  rw [if_pos ht]

theorem scrape_article_expired (cache : Cache) (env : ScrapeEnv) (url : String)
    (ts : ℚ) (body : String)
    (hv : is_valid_url url = true)
    (hc : cacheFind cache (urlHash url) = some (ts, body))
    (ht : ¬(env.nowCheck - ts < 3600)) :
    scrape_article cache env url = scrapeFetch cache env (urlHash url) := by
  unfold scrape_article
  rw [hv]
  simp only [Bool.not_true, Bool.false_eq_true, if_false]
  rw [hc]
  dsimp only
  rw [if_neg ht]

theorem scrapeFetch_success (cache : Cache) (env : ScrapeEnv) (key : String)
    (resp : HttpResponse)
    (hloop : fetchLoop env = ⟨.ok resp, [], 1⟩)
    (hct : contentTypeOk resp.contentType = true)
    (hlong : ¬((advanced_content_extraction (sanitize resp.soup)).1.length < 150)) :
    scrapeFetch cache env key =
      ⟨formatResult (extract_comprehensive_metadata (sanitize resp.soup))
          (advanced_content_extraction (sanitize resp.soup)).1
          (advanced_content_extraction (sanitize resp.soup)).2,
        cacheInsert cache key env.nowWrite
          (formatResult (extract_comprehensive_metadata (sanitize resp.soup))
            (advanced_content_extraction (sanitize resp.soup)).1
            (advanced_content_extraction (sanitize resp.soup)).2),
        1⟩ := by
  unfold scrapeFetch
  rw [hloop]
  dsimp only
  rw [hct]
  simp only [Bool.not_true, Bool.false_eq_true, if_false]
  rw [if_neg hlong]

theorem scrapeFetch_error_frame (cache : Cache) (env : ScrapeEnv) (key : String)
    (e : PyExc) (h : (fetchLoop env).outcome = .error e) :
    (scrapeFetch cache env key).cache = cache := by
  unfold scrapeFetch
  dsimp only
  rw [h]

theorem cacheFind_cacheSet (c : Cache) (k : String) (v : ℚ × String) :
    cacheFind (cacheSet c k v) k = some v := by
  induction c with
  | nil => simp [cacheSet, cacheFind]
  | cons e t ih =>
    by_cases he : e.1 = k
    · simp [cacheSet, he, cacheFind]
    · simp only [cacheSet, he, if_false]
      simp only [cacheFind, List.find?] at ih ⊢
      simp [he, ih]

theorem cacheSet_length (c : Cache) (k : String) (v : ℚ × String) :
    (cacheSet c k v).length ≤ c.length + 1 := by
  induction c with
  | nil => simp [cacheSet]
  | cons e t ih =>
    by_cases he : e.1 = k
    · simp [cacheSet, he]
    · simp only [cacheSet, he, if_false, List.length_cons]
      omega

theorem cacheInsert_find_small (c : Cache) (k : String) (t : ℚ) (v : String)
    (hsmall : c.length < 50) :
    cacheInsert c k t v = cacheSet c k (t, v) := by
  unfold cacheInsert
  have h := cacheSet_length c k (t, v)
  rw [if_neg (by omega)]

theorem fetchLoop_requests_pos (env : ScrapeEnv) : 1 ≤ (fetchLoop env).requests := by
  unfold fetchLoop
  rcases attemptResult env 0 with e | r
  · rcases attemptResult env 1 with e1 | r1
    · rcases attemptResult env 2 with e2 | r2 <;> norm_num
    · norm_num
  · norm_num

theorem scrapeFetch_requests_pos (cache : Cache) (env : ScrapeEnv) (key : String) :
    1 ≤ (scrapeFetch cache env key).requests := by
  unfold scrapeFetch
  dsimp only
  rcases h : (fetchLoop env).outcome with e | resp
  · exact fetchLoop_requests_pos env
  · by_cases hct : contentTypeOk resp.contentType
    · simp only [hct, Bool.not_true, Bool.false_eq_true, if_false]
      by_cases hlen : (advanced_content_extraction (sanitize resp.soup)).1.length < 150
      · rw [if_pos hlen]
        exact fetchLoop_requests_pos env
      · rw [if_neg hlen]
        exact fetchLoop_requests_pos env
    · simp only [Bool.not_eq_true] at hct
      simp only [hct, Bool.not_false, if_true]
      exact fetchLoop_requests_pos env
/-! ## Claim C8 -/

/-- **C8.**  A lookup hits only while `now - ts < 3600` (strict).  After a
successful fetch stores the body at time `nowWrite`, a second call inside
the window returns exactly the stored body behind the cached marker with
zero `session.get` calls, and a call at or past the TTL bypasses the entry
and performs a fresh fetch (at least one request). -/
theorem C8_ttl_two_calls (cache : Cache) (env env2 : ScrapeEnv) (url : String)
    (resp : HttpResponse)
    (hv : is_valid_url url = true)
    (hmiss : cacheFind cache (urlHash url) = none)
    (hsmall : cache.length < 50)
    (hloop : fetchLoop env = ⟨.ok resp, [], 1⟩)
    (hct : contentTypeOk resp.contentType = true)
    (hlong : ¬((advanced_content_extraction (sanitize resp.soup)).1.length < 150)) :
    cacheFind (scrape_article cache env url).cache (urlHash url) =
      some (env.nowWrite, (scrape_article cache env url).result) ∧
    (env2.nowCheck - env.nowWrite < 3600 →
      scrape_article (scrape_article cache env url).cache env2 url =
        ⟨msgCachedPrefix ++ (scrape_article cache env url).result,
          (scrape_article cache env url).cache, 0⟩) ∧
    (3600 ≤ env2.nowCheck - env.nowWrite →
      scrape_article (scrape_article cache env url).cache env2 url =
        scrapeFetch (scrape_article cache env url).cache env2 (urlHash url) ∧
      1 ≤ (scrapeFetch (scrape_article cache env url).cache env2 (urlHash url)).requests) := by
  have h1 : scrape_article cache env url =
      ⟨formatResult (extract_comprehensive_metadata (sanitize resp.soup))
          (advanced_content_extraction (sanitize resp.soup)).1
          (advanced_content_extraction (sanitize resp.soup)).2,
        cacheInsert cache (urlHash url) env.nowWrite
          (formatResult (extract_comprehensive_metadata (sanitize resp.soup))
            (advanced_content_extraction (sanitize resp.soup)).1
            (advanced_content_extraction (sanitize resp.soup)).2),
        1⟩ := by
    rw [scrape_article_uncached cache env url hv hmiss,
        scrapeFetch_success cache env (urlHash url) resp hloop hct hlong]
  rw [h1]
  dsimp only
  rw [cacheInsert_find_small cache (urlHash url) env.nowWrite _ hsmall]
  refine ⟨cacheFind_cacheSet cache (urlHash url) _, fun h2 => ?_, fun h3 => ?_⟩
  · exact scrape_article_hit _ env2 url env.nowWrite _ hv
      (cacheFind_cacheSet cache (urlHash url) _) h2
  · exact ⟨scrape_article_expired _ env2 url env.nowWrite _ hv
      (cacheFind_cacheSet cache (urlHash url) _) (not_lt.mpr h3),
    scrapeFetch_requests_pos _ env2 (urlHash url)⟩

/-- Witness for C8: a successful scrape of `docOK` stores the body at
`nowWrite = 1005`; at `nowCheck = 1500` the second call is a cache hit. -/
theorem C8_witness :
    cacheFind (scrape_article [] envOK urlA).cache (urlHash urlA) =
      some (1005, (scrape_article [] envOK urlA).result) ∧
    scrape_article (scrape_article [] envOK urlA).cache envW2 urlA =
      ⟨msgCachedPrefix ++ (scrape_article [] envOK urlA).result,
        (scrape_article [] envOK urlA).cache, 0⟩ :=
  have h := C8_ttl_two_calls [] envOK envW2 urlA
    ⟨200, "text/html; charset=utf-8", docOK⟩
    (by decide) rfl (by decide) (by with_unfolding_all rfl) (by decide)
    (by rw [show (advanced_content_extraction (sanitize
      (HttpResponse.mk 200 "text/html; charset=utf-8" docOK).soup)).1.length = 300 from by
        with_unfolding_all rfl]; norm_num)
  ⟨h.1, h.2.1 (by with_unfolding_all decide)⟩

/-! ## Claim C10 -/

/-- **C10.**  A cache hit is read-only: the returned cache is the argument
cache, the entry keeps its write-time timestamp `ts`, any later call past
`ts + 3600` treats the entry as expired no matter how many hits it served,
and an expired entry survives a failed refetch — it is deleted neither by
the read nor by the failed fetch. -/
theorem C10_hit_read_only (cache : Cache) (env : ScrapeEnv) (url : String)
    (ts : ℚ) (body : String)
    (hv : is_valid_url url = true)
    (hc : cacheFind cache (urlHash url) = some (ts, body))
    (ht : env.nowCheck - ts < 3600) :
    (scrape_article cache env url).cache = cache ∧
    cacheFind (scrape_article cache env url).cache (urlHash url) = some (ts, body) ∧
    (∀ env2 : ScrapeEnv, 3600 ≤ env2.nowCheck - ts →
      scrape_article (scrape_article cache env url).cache env2 url =
        scrapeFetch (scrape_article cache env url).cache env2 (urlHash url)) ∧
    (∀ env2 : ScrapeEnv, ∀ e : PyExc, 3600 ≤ env2.nowCheck - ts →
      (fetchLoop env2).outcome = .error e →
      cacheFind (scrape_article cache env2 url).cache (urlHash url) = some (ts, body)) := by
  have h1 := scrape_article_hit cache env url ts body hv hc ht
  rw [h1]
  refine ⟨rfl, hc, fun env2 h2 => ?_, fun env2 e h2 herr => ?_⟩
  · exact scrape_article_expired cache env2 url ts body hv hc (not_lt.mpr h2)
  · rw [scrape_article_expired cache env2 url ts body hv hc (not_lt.mpr h2),
        scrapeFetch_error_frame cache env2 (urlHash url) e herr]
    exact hc

/-- Witness for C10: a hit on a one-entry cache at `nowCheck = 2000`
against timestamp `1000`. -/
theorem C10_witness :
    (scrape_article cacheB envHit urlA).cache = cacheB ∧
    cacheFind (scrape_article cacheB envHit urlA).cache (urlHash urlA) =
      some (1000, "B") ∧
    (∀ env2 : ScrapeEnv, 3600 ≤ env2.nowCheck - 1000 →
      scrape_article (scrape_article cacheB envHit urlA).cache env2 urlA =
        scrapeFetch (scrape_article cacheB envHit urlA).cache env2 (urlHash urlA)) ∧
    (∀ env2 : ScrapeEnv, ∀ e : PyExc, 3600 ≤ env2.nowCheck - 1000 →
      (fetchLoop env2).outcome = .error e →
      cacheFind (scrape_article cacheB env2 urlA).cache (urlHash urlA) =
        some (1000, "B")) :=
  C10_hit_read_only cacheB envHit urlA 1000 "B" (by decide)
    (by with_unfolding_all rfl) (by with_unfolding_all decide)

/-! ## Claim C7 -/

theorem removeFirstWithTs_decomp (c : Cache) (m : ℚ)
    (hm : m ∈ c.map fun e => e.2.1) :
    ∃ pre e post, c = pre ++ e :: post ∧ e.2.1 = m ∧
      removeFirstWithTs c m = pre ++ post ∧ ∀ q ∈ pre, q.2.1 ≠ m := by
  induction c with
  | nil => simp at hm
  | cons a t ih =>
    by_cases ha : a.2.1 = m
    · exact ⟨[], a, t, rfl, ha, by simp [removeFirstWithTs, ha], by simp⟩
    · have hm' : m ∈ t.map fun e => e.2.1 := by
        simp only [List.map_cons, List.mem_cons] at hm
        rcases hm with h | h
        · exact absurd h.symm ha
        · exact h
      obtain ⟨pre, e, post, heq, hts, hrm, hpre⟩ := ih hm'
      refine ⟨a :: pre, e, post, by rw [heq]; rfl, hts, ?_, ?_⟩
      · simp only [removeFirstWithTs, ha, if_false, hrm]
        rfl
      · intro q hq
        rcases List.mem_cons.mp hq with rfl | hq'
        · exact ha
        · exact hpre q hq'

theorem evictOldest_min (c : Cache) (hne : c ≠ []) :
    ∃ pre e post, c = pre ++ e :: post ∧
      evictOldest c = pre ++ post ∧
      (∀ q ∈ c, e.2.1 ≤ q.2.1) ∧
      (∀ q ∈ pre, e.2.1 < q.2.1) := by
  rcases hmin : (c.map fun e => e.2.1).minimum? with - | m
  · obtain ⟨a, t, rfl⟩ := List.exists_cons_of_ne_nil hne
    simp [List.minimum?_cons] at hmin
  · have hiff := (@List.minimum?_eq_some_iff ℚ _ _ _ ⟨fun h h2 => le_antisymm h h2⟩
      (fun a => le_refl a) (fun a b => min_choice a b) (fun a b c => le_min_iff) _).mp hmin
    have hmem : m ∈ c.map fun e => e.2.1 := hiff.1
    have hle : ∀ b ∈ c.map fun e => e.2.1, m ≤ b := fun b hb => hiff.2 b hb
    obtain ⟨pre, e, post, heq, hts, hrm, hpre⟩ := removeFirstWithTs_decomp c m hmem
    refine ⟨pre, e, post, heq, ?_, ?_, ?_⟩
    · unfold evictOldest
      rw [hmin]
      exact hrm
    · intro q hq
      rw [hts]
      exact hle q.2.1 (List.mem_map_of_mem _ hq)
    · intro q hq
      have h1 : m ≤ q.2.1 := hle q.2.1 (List.mem_map_of_mem _ (by
        rw [heq]; exact List.mem_append_left (e :: post) hq))
      have h2 : q.2.1 ≠ m := hpre q hq
      rw [hts]
      exact lt_of_le_of_ne h1 (Ne.symm h2)

theorem cacheInsert_capacity (c : Cache) (k : String) (t : ℚ) (v : String)
    (h : c.length ≤ 50) : (cacheInsert c k t v).length ≤ 50 := by
  unfold cacheInsert
  dsimp only
  by_cases hlen : 50 < (cacheSet c k (t, v)).length
  · rw [if_pos hlen]
    have hne : cacheSet c k (t, v) ≠ [] := by
      intro h0
      rw [h0] at hlen
      simp at hlen
    obtain ⟨pre, e, post, heq, hev, -, -⟩ := evictOldest_min _ hne
    have hlen2 := cacheSet_length c k (t, v)
    have hdec : (cacheSet c k (t, v)).length = pre.length + post.length + 1 := by
      rw [heq]
      simp [List.length_append]
      omega
    rw [hev]
    simp only [List.length_append]
    omega
  · rw [if_neg hlen]
    omega

/-- **C7.**  The cache never exceeds 50 entries after an insert; when the
insert-then-check finds 51 entries, the evicted entry carries the globally
smallest timestamp (and is the first such entry in insertion order); and
inserting 51 distinct URLs into an empty cache leaves exactly 50 entries,
the very first (oldest) URL having been evicted. -/
theorem C7_capacity_eviction :
    (∀ (c : Cache) (k : String) (t : ℚ) (v : String),
      c.length ≤ 50 → (cacheInsert c k t v).length ≤ 50) ∧
    (∀ (c : Cache) (k : String) (t : ℚ) (v : String),
      50 < (cacheSet c k (t, v)).length →
      ∃ pre e post, cacheSet c k (t, v) = pre ++ e :: post ∧
        cacheInsert c k t v = pre ++ post ∧
        (∀ q ∈ cacheSet c k (t, v), e.2.1 ≤ q.2.1) ∧
        (∀ q ∈ pre, e.2.1 < q.2.1)) ∧
    (insertAll c7keys []).length = 50 ∧
    cacheFind (insertAll c7keys []) ⟨List.replicate 1 'k'⟩ = none := by
  refine ⟨fun c k t v h => cacheInsert_capacity c k t v h, ?_, ?_, ?_⟩
  · intro c k t v hlen
    have hne : cacheSet c k (t, v) ≠ [] := by
      intro h0
      rw [h0] at hlen
      simp at hlen
    obtain ⟨pre, e, post, heq, hev, hmin, hpre⟩ := evictOldest_min _ hne
    refine ⟨pre, e, post, heq, ?_, hmin, hpre⟩
    unfold cacheInsert
    dsimp only
    rw [if_pos hlen]
    exact hev
  · with_unfolding_all rfl
  · with_unfolding_all rfl

/-- Witness for C7: the empty-cache insert stays within capacity, and
inserting a 51st distinct key into the full `c7cache50` triggers the
minimal-timestamp eviction decomposition. -/
theorem C7_witness :
    (cacheInsert [] "k" 0 "v").length ≤ 50 ∧
    (∃ pre e post,
      cacheSet c7cache50 ⟨List.replicate 51 'k'⟩ ((51 : ℚ), "v") = pre ++ e :: post ∧
      cacheInsert c7cache50 ⟨List.replicate 51 'k'⟩ 51 "v" = pre ++ post ∧
      (∀ q ∈ cacheSet c7cache50 ⟨List.replicate 51 'k'⟩ ((51 : ℚ), "v"),
        e.2.1 ≤ q.2.1) ∧
      (∀ q ∈ pre, e.2.1 < q.2.1)) :=
  ⟨C7_capacity_eviction.1 [] "k" 0 "v" (by decide),
   C7_capacity_eviction.2.1 c7cache50 ⟨List.replicate 51 'k'⟩ 51 "v"
     (by with_unfolding_all decide)⟩

/-! ## Claim C6: the normalizer is idempotent -/

theorem dropWhile_length_le (p : α → Bool) (l : List α) :
    (l.dropWhile p).length ≤ l.length := by
  induction l with
  | nil => simp
  | cons a t ih =>
    by_cases h : p a
    · rw [List.dropWhile_cons_of_pos h, List.length_cons]
      exact Nat.le_succ_of_le ih
    · rw [List.dropWhile_cons_of_neg h]

theorem dropWhile_head_not (p : α → Bool) (l : List α) (h : α)
    (hh : (l.dropWhile p).head? = some h) : p h = false := by
  induction l with
  | nil => simp at hh
  | cons a t ih =>
    by_cases hp : p a
    · rw [List.dropWhile_cons_of_pos hp] at hh
      exact ih hh
    · rw [List.dropWhile_cons_of_neg hp] at hh
      simp at hh
      rw [← hh]
      exact Bool.eq_false_iff.mpr hp

theorem dropWhile_eq_self_of_head (p : α → Bool) (l : List α)
    (h : ∀ a, l.head? = some a → p a = false) : l.dropWhile p = l := by
  cases l with
  | nil => rfl
  | cons a t =>
    rw [List.dropWhile_cons_of_neg]
    simp [h a rfl]

theorem pyStrip_eq_self_parts (l : List Char) (h : pyStrip l = l) :
    l.dropWhile isPyWs = l ∧ l.reverse.dropWhile isPyWs = l.reverse := by
  have h1 : (l.dropWhile isPyWs).length ≤ l.length := dropWhile_length_le _ _
  have h2 : (pyStrip l).length ≤ (l.dropWhile isPyWs).length := by
    unfold pyStrip
    rw [List.length_reverse]
    calc ((l.dropWhile isPyWs).reverse.dropWhile isPyWs).length
        ≤ (l.dropWhile isPyWs).reverse.length := dropWhile_length_le _ _
      _ = (l.dropWhile isPyWs).length := List.length_reverse _
  have hlen : (l.dropWhile isPyWs).length = l.length := by
    rw [h] at h2
    omega
  have hdw : l.dropWhile isPyWs = l :=
    (List.dropWhile_suffix isPyWs).sublist.eq_of_length hlen
  refine ⟨hdw, ?_⟩
  have h3 : pyStrip l = (l.reverse.dropWhile isPyWs).reverse := by
    unfold pyStrip
    rw [hdw]
  rw [h] at h3
  have : l.reverse = ((l.reverse.dropWhile isPyWs).reverse).reverse := by
    rw [← h3]
  simpa using this.symm

theorem pyStrip_head_not_ws (l : List Char) (h : pyStrip l = l) (c : Char)
    (hc : l.head? = some c) : isPyWs c = false := by
  obtain ⟨h1, -⟩ := pyStrip_eq_self_parts l h
  cases l with
  | nil => simp at hc
  | cons a t =>
    simp at hc
    subst hc
    by_contra hws
    rw [List.dropWhile_cons_of_pos (by simpa using hws)] at h1
    have := dropWhile_length_le isPyWs t
    have hlen := congrArg List.length h1
    simp only [List.length_cons] at hlen
    omega

theorem pyStrip_last_not_ws (l : List Char) (h : pyStrip l = l) (c : Char)
    (hc : l.getLast? = some c) : isPyWs c = false := by
  obtain ⟨-, h2⟩ := pyStrip_eq_self_parts l h
  have hh : l.reverse.head? = some c := by
    rw [List.head?_reverse]
    exact hc
  cases hrev : l.reverse with
  | nil => rw [hrev] at hh; simp at hh
  | cons a t =>
    rw [hrev] at hh h2
    simp at hh
    subst hh
    by_contra hws
    rw [List.dropWhile_cons_of_pos (by simpa using hws)] at h2
    have := dropWhile_length_le isPyWs t
    have hlen := congrArg List.length h2
    simp only [List.length_cons] at hlen
    omega

theorem pyStrip_eq_self_of_ends (l : List Char)
    (hh : ∀ c, l.head? = some c → isPyWs c = false)
    (hl : ∀ c, l.getLast? = some c → isPyWs c = false) : pyStrip l = l := by
  unfold pyStrip
  rw [dropWhile_eq_self_of_head _ _ hh]
  rw [dropWhile_eq_self_of_head _ _ (fun a ha => hl a (by rwa [← List.head?_reverse]))]
  exact List.reverse_reverse l

theorem suffix_getLast? (s l : List α) (hs : s <:+ l) (hne : s ≠ []) :
    s.getLast? = l.getLast? := by
  obtain ⟨t, rfl⟩ := hs
  rw [List.getLast?_append]
  cases h : s.getLast? with
  | none => exact absurd (List.getLast?_eq_none_iff.mp h) hne
  | some a => rfl

theorem pyStrip_stripped (l : List Char) : pyStrip (pyStrip l) = pyStrip l := by
  apply pyStrip_eq_self_of_ends
  · intro c hc
    unfold pyStrip at hc
    rw [List.head?_reverse] at hc
    have hne : (l.dropWhile isPyWs).reverse.dropWhile isPyWs ≠ [] := by
      intro h0
      rw [h0] at hc
      simp at hc
    have hsuf : (l.dropWhile isPyWs).reverse.dropWhile isPyWs <:+
        (l.dropWhile isPyWs).reverse := List.dropWhile_suffix _
    rw [suffix_getLast? _ _ hsuf hne] at hc
    rw [List.getLast?_reverse] at hc
    exact dropWhile_head_not isPyWs l c hc
  · intro c hc
    unfold pyStrip at hc
    rw [List.getLast?_reverse] at hc
    exact dropWhile_head_not isPyWs _ c hc

theorem bool_ne_false (b : Bool) (h : ¬ b = false) : b = true := by
  cases b
  · exact absurd rfl h
  · rfl

theorem noSeq_mono (pat l m : List Char) (hm : containsSeq pat m = false)
    (hlm : l <:+: m) : containsSeq pat l = false := by
  by_contra h
  have h1 := (containsSeq_iff pat l).mp (bool_ne_false _ h)
  have h2 := (containsSeq_iff pat m).mpr (h1.trans hlm)
  rw [hm] at h2
  exact Bool.false_ne_true h2

theorem noSeq_replicate (pat : List Char) (p : Char) (m : Nat)
    (hne : pat ≠ []) (hp : p ∉ pat) : containsSeq pat (List.replicate m p) = false := by
  by_contra h
  have hinf := (containsSeq_iff pat _).mp (bool_ne_false _ h)
  obtain ⟨c, hc⟩ := List.exists_mem_of_ne_nil pat hne
  have : c ∈ List.replicate m p := hinf.sublist.subset hc
  rw [List.eq_of_mem_replicate this] at hc
  exact hp hc

theorem prefix_append_split (l a b : List α) (h : l <+: a ++ b) :
    l <+: a ∨ ∃ l2, l = a ++ l2 ∧ l2 <+: b := by
  induction a generalizing l with
  | nil => exact Or.inr ⟨l, rfl, by simpa using h⟩
  | cons x a' ih =>
    cases l with
    | nil => exact Or.inl List.nil_prefix
    | cons q lt =>
      rw [List.cons_append, List.cons_prefix_cons] at h
      obtain ⟨rfl, hlt⟩ := h
      rcases ih lt hlt with h1 | ⟨l2, rfl, h2⟩
      · exact Or.inl (List.cons_prefix_cons.mpr ⟨rfl, h1⟩)
      · exact Or.inr ⟨l2, rfl, h2⟩

theorem infix_append_decomp (pat a b : List α) (h : pat <:+: a ++ b) :
    pat <:+: a ∨ pat <:+: b ∨
      ∃ p1 p2, pat = p1 ++ p2 ∧ p1 ≠ [] ∧ p2 ≠ [] ∧ p1 <:+ a ∧ p2 <+: b := by
  induction a generalizing pat with
  | nil => exact Or.inr (Or.inl (by simp only [List.nil_append] at h; exact h))
  | cons x a' ih =>
    rw [List.cons_append] at h
    rcases List.infix_cons_iff.mp h with hpre | hinf
    · rcases prefix_append_split pat (x :: a') b hpre with h1 | ⟨l2, rfl, h2⟩
      · exact Or.inl h1.isInfix
      · by_cases h0 : l2 = []
        · subst h0
          exact Or.inl ⟨[], [], by simp⟩
        · exact Or.inr (Or.inr ⟨x :: a', l2, rfl, by simp, h0, List.suffix_refl _, h2⟩)
    · rcases ih pat hinf with h1 | h1 | ⟨p1, p2, rfl, hp1, hp2, hs, hp⟩
      · exact Or.inl (h1.trans (List.suffix_cons x a').isInfix)
      · exact Or.inr (Or.inl h1)
      · exact Or.inr (Or.inr ⟨p1, p2, rfl, hp1, hp2, hs.trans (List.suffix_cons x a'),
          hp⟩)

theorem singleton_prefix_iff (b : α) (t : List α) :
    [b] <+: t ↔ t.head? = some b := by
  cases t with
  | nil => simp
  | cons c r =>
    rw [List.cons_prefix_cons]
    simp [eq_comm]

theorem dbl_cons_iff (a b c : Char) (t : List Char) :
    containsSeq [a, b] (c :: t) = true ↔
      (c = a ∧ t.head? = some b) ∨ containsSeq [a, b] t = true := by
  show (List.isPrefixOf [a, b] (c :: t) || containsSeq [a, b] t) = true ↔ _
  rw [Bool.or_eq_true, List.isPrefixOf_iff_prefix, List.cons_prefix_cons,
    singleton_prefix_iff]
  tauto

theorem dbl_append_decomp (a b : Char) (x y : List Char)
    (h : containsSeq [a, b] (x ++ y) = true) :
    containsSeq [a, b] x = true ∨ containsSeq [a, b] y = true ∨
      (x.getLast? = some a ∧ y.head? = some b) := by
  have hinf := (containsSeq_iff _ _).mp h
  rcases infix_append_decomp _ _ _ hinf with h1 | h1 | ⟨p1, p2, heq, hp1, hp2, hs, hp⟩
  · exact Or.inl ((containsSeq_iff _ _).mpr h1)
  · exact Or.inr (Or.inl ((containsSeq_iff _ _).mpr h1))
  · have hlen : p1.length + p2.length = 2 := by
      have := congrArg List.length heq
      simpa using this.symm
    have h1 : p1.length = 1 := by
      have e1 : 0 < p1.length := List.length_pos.mpr hp1
      have e2 : 0 < p2.length := List.length_pos.mpr hp2
      omega
    have h2 : p2.length = 1 := by omega
    obtain ⟨u, rfl⟩ := List.length_eq_one.mp h1
    obtain ⟨v, rfl⟩ := List.length_eq_one.mp h2
    have h' : [a, b] = [u, v] := by simpa using heq
    have ha : a = u := by injection h' with ha _
    have hb : b = v := by
      injection h' with _ htl
      injection htl with hb _
    subst ha
    subst hb
    refine Or.inr (Or.inr ⟨?_, ?_⟩)
    · obtain ⟨s, rfl⟩ := hs
      rw [List.getLast?_append]
      rfl
    · obtain ⟨s, rfl⟩ := hp
      rfl

theorem normNewlines_cons (c : Char) (t : List Char) (h : ¬ c = '\r') :
    normNewlines (c :: t) = c :: normNewlines t := by
  rw [normNewlines.eq_def]
  split
  · simp_all
  · simp_all
  · simp_all
  · simp_all

theorem normNewlines_crlf (t : List Char) :
    normNewlines ('\r' :: '\n' :: t) = '\n' :: normNewlines t := rfl

theorem normNewlines_cr_nil : normNewlines ['\r'] = ['\n'] := rfl

theorem normNewlines_cr_cons (d : Char) (t' : List Char) (hd : ¬ d = '\n') :
    normNewlines ('\r' :: d :: t') = '\n' :: normNewlines (d :: t') := by
  rw [normNewlines.eq_def]
  split
  · simp_all
  · simp_all
  · simp_all
  · rename_i hne heq
    exact absurd (by injection heq with h1 _; exact h1.symm : _ = '\r') hne

theorem normNewlines_id (l : List Char) (h : '\r' ∉ l) : normNewlines l = l := by
  induction l with
  | nil => rfl
  | cons c t ih =>
    rw [normNewlines_cons c t (by intro he; exact h (he ▸ List.mem_cons_self c t))]
    rw [ih (fun hm => h (List.mem_cons_of_mem c hm))]

theorem normNewlines_aux (n : Nat) : ∀ l : List Char, l.length ≤ n →
    '\r' ∉ normNewlines l ∧ ∀ c ∈ normNewlines l, c = '\n' ∨ c ∈ l := by
  induction n with
  | zero =>
    intro l hl
    rw [List.eq_nil_of_length_eq_zero (Nat.le_zero.mp hl)]
    exact ⟨by simp [normNewlines], by simp [normNewlines]⟩
  | succ n ih =>
    intro l hl
    cases l with
    | nil => exact ⟨by simp [normNewlines], by simp [normNewlines]⟩
    | cons c t =>
      rw [List.length_cons] at hl
      by_cases hc : c = '\r'
      · subst hc
        cases t with
        | nil =>
          rw [normNewlines_cr_nil]
          refine ⟨?_, ?_⟩
          · simp
          · intro d hd
            simp at hd
            exact Or.inl hd
        | cons d t' =>
          by_cases hd : d = '\n'
          · subst hd
            rw [normNewlines_crlf t']
            have hih := ih t' (by simp at hl; omega)
            refine ⟨?_, ?_⟩
            · intro hm
              rcases List.mem_cons.mp hm with he | hm
              · exact absurd he (by decide)
              · exact hih.1 hm
            · intro e he
              rcases List.mem_cons.mp he with rfl | he
              · exact Or.inl rfl
              · rcases hih.2 e he with h1 | h1
                · exact Or.inl h1
                · exact Or.inr (by simp [h1])
          · rw [normNewlines_cr_cons d t' hd]
            have hih := ih (d :: t') (by omega)
            refine ⟨?_, ?_⟩
            · intro hm
              rcases List.mem_cons.mp hm with he | hm
              · exact absurd he (by decide)
              · exact hih.1 hm
            · intro e he
              rcases List.mem_cons.mp he with rfl | he
              · exact Or.inl rfl
              · rcases hih.2 e he with h1 | h1
                · exact Or.inl h1
                · exact Or.inr (List.mem_cons_of_mem _ h1)
      · rw [normNewlines_cons c t hc]
        have hih := ih t (by omega)
        refine ⟨?_, ?_⟩
        · intro hm
          rcases List.mem_cons.mp hm with he | hm
          · exact hc he.symm
          · exact hih.1 hm
        · intro e he
          rcases List.mem_cons.mp he with rfl | he
          · exact Or.inr (List.mem_cons_self _ _)
          · rcases hih.2 e he with h1 | h1
            · exact Or.inl h1
            · exact Or.inr (List.mem_cons_of_mem _ h1)

theorem normNewlines_no_cr (l : List Char) : '\r' ∉ normNewlines l :=
  (normNewlines_aux l.length l (Nat.le_refl _)).1

theorem mem_normNewlines (c : Char) (l : List Char) (h : c ∈ normNewlines l) :
    c = '\n' ∨ c ∈ l :=
  (normNewlines_aux l.length l (Nat.le_refl _)).2 c h

theorem tabsToSpaces_id (l : List Char) (h : '\t' ∉ l) : tabsToSpaces l = l := by
  unfold tabsToSpaces
  rw [List.map_congr_left (g := id) ?_, List.map_id]
  intro a ha
  simp only [id]
  rw [if_neg]
  intro he
  exact h (he ▸ ha)

theorem tabsToSpaces_no_tab (l : List Char) : '\t' ∉ tabsToSpaces l := by
  unfold tabsToSpaces
  intro hm
  obtain ⟨x, -, hx⟩ := List.mem_map.mp hm
  by_cases h : x = '\t'
  · rw [if_pos h] at hx
    exact absurd hx (by decide)
  · rw [if_neg h] at hx
    exact h hx

theorem mem_tabsToSpaces (c : Char) (l : List Char) (h : c ∈ tabsToSpaces l) :
    c = ' ' ∨ c ∈ l := by
  obtain ⟨x, hx, he⟩ := List.mem_map.mp h
  by_cases h0 : x = '\t'
  · rw [if_pos h0] at he
    exact Or.inl he.symm
  · rw [if_neg h0] at he
    exact Or.inr (he ▸ hx)

theorem cs_true_eq_false (t : List Char) (h : t.head? ≠ some ' ') :
    collapseSpacesGo true t = collapseSpacesGo false t := by
  cases t with
  | nil => rfl
  | cons c r =>
    have hc : ¬ c = ' ' := fun he => h (by simp [he])
    simp [collapseSpacesGo, hc]

theorem noSeq_cons_tail (pat : List Char) (c : Char) (t : List Char)
    (h : containsSeq pat (c :: t) = false) : containsSeq pat t = false := by
  have h0 : (List.isPrefixOf pat (c :: t) || containsSeq pat t) = false := h
  exact (Bool.or_eq_false_iff.mp h0).2

theorem nodbl_cons_head (a b c : Char) (t : List Char)
    (h : containsSeq [a, b] (c :: t) = false) (hc : c = a) : t.head? ≠ some b := by
  intro hh
  have := (dbl_cons_iff a b c t).mpr (Or.inl ⟨hc, hh⟩)
  rw [h] at this
  exact Bool.false_ne_true this

theorem cs_go_id (l : List Char) (h : containsSeq [' ', ' '] l = false) :
    collapseSpacesGo false l = l := by
  induction l with
  | nil => rfl
  | cons c t ih =>
    by_cases hc : c = ' '
    · subst hc
      have e1 : collapseSpacesGo false (' ' :: t) = ' ' :: collapseSpacesGo true t := by
        simp [collapseSpacesGo]
      rw [e1, cs_true_eq_false t (nodbl_cons_head ' ' ' ' ' ' t h rfl),
        ih (noSeq_cons_tail _ _ _ h)]
    · have e1 : collapseSpacesGo false (c :: t) = c :: collapseSpacesGo false t := by
        simp [collapseSpacesGo, hc]
      rw [e1, ih (noSeq_cons_tail _ _ _ h)]

theorem collapseSpaces_id (l : List Char) (h : containsSeq [' ', ' '] l = false) :
    collapseSpaces l = l := cs_go_id l h

theorem cs_go_props (l : List Char) :
    containsSeq [' ', ' '] (collapseSpacesGo false l) = false ∧
    containsSeq [' ', ' '] (collapseSpacesGo true l) = false ∧
    (collapseSpacesGo true l).head? ≠ some ' ' := by
  induction l with
  | nil => exact ⟨rfl, rfl, by simp [collapseSpacesGo]⟩
  | cons c t ih =>
    obtain ⟨ihf, iht, ihh⟩ := ih
    by_cases hc : c = ' '
    · subst hc
      have e1 : collapseSpacesGo false (' ' :: t) = ' ' :: collapseSpacesGo true t := by
        simp [collapseSpacesGo]
      have e2 : collapseSpacesGo true (' ' :: t) = collapseSpacesGo true t := by
        simp [collapseSpacesGo]
      refine ⟨?_, ?_, ?_⟩
      · rw [e1]
        by_contra hcc
        rcases (dbl_cons_iff ' ' ' ' ' ' _).mp (bool_ne_false _ hcc) with ⟨-, hh⟩ | hh
        · exact ihh hh
        · rw [iht] at hh
          exact Bool.false_ne_true hh
      · rw [e2]; exact iht
      · rw [e2]; exact ihh
    · have e1 : collapseSpacesGo false (c :: t) = c :: collapseSpacesGo false t := by
        simp [collapseSpacesGo, hc]
      have e2 : collapseSpacesGo true (c :: t) = c :: collapseSpacesGo false t := by
        simp [collapseSpacesGo, hc]
      have habs : containsSeq [' ', ' '] (c :: collapseSpacesGo false t) = false := by
        by_contra hcc
        rcases (dbl_cons_iff ' ' ' ' c _).mp (bool_ne_false _ hcc) with ⟨he, -⟩ | hh
        · exact hc he
        · rw [ihf] at hh
          exact Bool.false_ne_true hh
      refine ⟨?_, ?_, ?_⟩
      · rw [e1]; exact habs
      · rw [e2]; exact habs
      · rw [e2]
        intro hh
        simp at hh
        exact hc hh

theorem mem_collapseSpacesGo (c : Char) (flag : Bool) (l : List Char)
    (h : c ∈ collapseSpacesGo flag l) : c ∈ l := by
  induction l generalizing flag with
  | nil => cases flag <;> simp [collapseSpacesGo] at h
  | cons a t ih =>
    by_cases ha : a = ' '
    · subst ha
      cases flag with
      | true =>
        simp only [collapseSpacesGo, if_pos rfl, if_pos rfl] at h
        exact List.mem_cons_of_mem _ (ih true h)
      | false =>
        simp only [collapseSpacesGo, if_pos rfl, if_neg Bool.false_ne_true] at h
        rcases List.mem_cons.mp h with rfl | h
        · exact List.mem_cons_self _ _
        · exact List.mem_cons_of_mem _ (ih true h)
    · simp only [collapseSpacesGo, if_neg ha] at h
      rcases List.mem_cons.mp h with rfl | h
      · exact List.mem_cons_self _ _
      · exact List.mem_cons_of_mem _ (ih false h)

theorem nodbl_cons_intro (a b c : Char) (X : List Char)
    (h1 : ¬(c = a ∧ X.head? = some b)) (h2 : containsSeq [a, b] X = false) :
    containsSeq [a, b] (c :: X) = false := by
  by_contra h
  rcases (dbl_cons_iff a b c X).mp (bool_ne_false _ h) with h3 | h3
  · exact h1 h3
  · rw [h2] at h3
    exact Bool.false_ne_true h3

theorem sgo_main (l : List Char) :
    (containsSeq [' ', '\n'] l = false → containsSeq ['\n', ' '] l = false →
      ∀ pend, (pend ≠ 0 → l.head? ≠ some '\n') →
        stripSpacesAroundNLGo pend false l = List.replicate pend ' ' ++ l) ∧
    (containsSeq [' ', '\n'] l = false → containsSeq ['\n', ' '] l = false →
      l.head? ≠ some ' ' →
      stripSpacesAroundNLGo 0 true l = l) := by
  induction l with
  | nil =>
    constructor
    · intro h1 h2 pend hp
      simp [stripSpacesAroundNLGo]
    · intro h1 h2 hh
      simp [stripSpacesAroundNLGo]
  | cons c t ih =>
    obtain ⟨ihF, ihT⟩ := ih
    constructor
    · intro h1 h2 pend hp
      by_cases hc : c = ' '
      · subst hc
        have e : stripSpacesAroundNLGo pend false (' ' :: t) =
            stripSpacesAroundNLGo (pend + 1) false t := by
          simp [stripSpacesAroundNLGo]
        rw [e, ihF (noSeq_cons_tail _ _ _ h1) (noSeq_cons_tail _ _ _ h2)
          (pend + 1) (fun _ => nodbl_cons_head ' ' '\n' ' ' t h1 rfl)]
        simp [List.replicate_succ']
      · by_cases hn : c = '\n'
        · subst hn
          rcases pend with _ | pend'
          · have e : stripSpacesAroundNLGo 0 false ('\n' :: t) =
                '\n' :: stripSpacesAroundNLGo 0 true t := by
              simp [stripSpacesAroundNLGo]
            rw [e, ihT (noSeq_cons_tail _ _ _ h1) (noSeq_cons_tail _ _ _ h2)
              (nodbl_cons_head '\n' ' ' '\n' t h2 rfl)]
            simp
          · exact absurd rfl (hp (Nat.succ_ne_zero pend'))
        · have e : stripSpacesAroundNLGo pend false (c :: t) =
              List.replicate pend ' ' ++ c :: stripSpacesAroundNLGo 0 false t := by
            simp [stripSpacesAroundNLGo, hc, hn]
          rw [e, ihF (noSeq_cons_tail _ _ _ h1) (noSeq_cons_tail _ _ _ h2)
            0 (fun h0 => absurd rfl h0)]
          simp
    · intro h1 h2 hh
      by_cases hc : c = ' '
      · exact absurd (by simp [hc]) hh
      · by_cases hn : c = '\n'
        · subst hn
          have e : stripSpacesAroundNLGo 0 true ('\n' :: t) =
              '\n' :: stripSpacesAroundNLGo 0 true t := by
            simp [stripSpacesAroundNLGo]
          rw [e, ihT (noSeq_cons_tail _ _ _ h1) (noSeq_cons_tail _ _ _ h2)
            (nodbl_cons_head '\n' ' ' '\n' t h2 rfl)]
        · have e : stripSpacesAroundNLGo 0 true (c :: t) =
              c :: stripSpacesAroundNLGo 0 false t := by
            simp [stripSpacesAroundNLGo, hc, hn]
          rw [e, ihF (noSeq_cons_tail _ _ _ h1) (noSeq_cons_tail _ _ _ h2)
            0 (fun h0 => absurd rfl h0)]
          simp

theorem stripSpacesAroundNL_id (l : List Char)
    (h1 : containsSeq [' ', '\n'] l = false)
    (h2 : containsSeq ['\n', ' '] l = false) : stripSpacesAroundNL l = l := by
  have := (sgo_main l).1 h1 h2 0 (fun h0 => absurd rfl h0)
  simpa using this

theorem sgo_nodbl (l : List Char) :
    (containsSeq [' ', ' '] l = false →
      ∀ pend, pend ≤ 1 → (pend = 1 → l.head? ≠ some ' ') →
        containsSeq [' ', ' '] (stripSpacesAroundNLGo pend false l) = false) ∧
    (containsSeq [' ', ' '] l = false →
      containsSeq [' ', ' '] (stripSpacesAroundNLGo 0 true l) = false) := by
  induction l with
  | nil =>
    constructor
    · intro h pend hpd hph
      rcases pend with _ | pend'
      · simp [stripSpacesAroundNLGo]
        rfl
      · rcases pend' with _ | pend''
        · simp [stripSpacesAroundNLGo]
          decide
        · omega
    · intro h
      simp [stripSpacesAroundNLGo]
      rfl
  | cons c t ih =>
    obtain ⟨ihF, ihT⟩ := ih
    constructor
    · intro h pend hpd hph
      by_cases hc : c = ' '
      · subst hc
        have hpz : pend = 0 := by
          rcases Nat.lt_or_ge pend 1 with h0 | h0
          · omega
          · exact absurd rfl (hph (by omega))
        subst hpz
        have e : stripSpacesAroundNLGo 0 false (' ' :: t) =
            stripSpacesAroundNLGo 1 false t := by
          simp [stripSpacesAroundNLGo]
        rw [e]
        exact ihF (noSeq_cons_tail _ _ _ h) 1 (by omega)
          (fun _ => nodbl_cons_head ' ' ' ' ' ' t h rfl)
      · by_cases hn : c = '\n'
        · subst hn
          have e : stripSpacesAroundNLGo pend false ('\n' :: t) =
              '\n' :: stripSpacesAroundNLGo 0 true t := by
            simp [stripSpacesAroundNLGo]
          rw [e]
          exact nodbl_cons_intro ' ' ' ' '\n' _ (fun hx => by exact absurd hx.1 (by decide))
            (ihT (noSeq_cons_tail _ _ _ h))
        · have e : stripSpacesAroundNLGo pend false (c :: t) =
              List.replicate pend ' ' ++ c :: stripSpacesAroundNLGo 0 false t := by
            simp [stripSpacesAroundNLGo, hc, hn]
          rw [e]
          have hrest : containsSeq [' ', ' ']
              (c :: stripSpacesAroundNLGo 0 false t) = false :=
            nodbl_cons_intro ' ' ' ' c _ (fun hx => hc hx.1)
              (ihF (noSeq_cons_tail _ _ _ h) 0 (by omega) (fun h0 => absurd h0 (by omega)))
          rcases pend with _ | pend'
          · simpa using hrest
          · have hp1 : pend' = 0 := by omega
            subst hp1
            show containsSeq [' ', ' ']
              (' ' :: c :: stripSpacesAroundNLGo 0 false t) = false
            exact nodbl_cons_intro ' ' ' ' ' ' _ (fun hx => hc (by simpa using hx.2)) hrest
    · intro h
      by_cases hc : c = ' '
      · subst hc
        have e : stripSpacesAroundNLGo 0 true (' ' :: t) =
            stripSpacesAroundNLGo 0 true t := by
          simp [stripSpacesAroundNLGo]
        rw [e]
        exact ihT (noSeq_cons_tail _ _ _ h)
      · by_cases hn : c = '\n'
        · subst hn
          have e : stripSpacesAroundNLGo 0 true ('\n' :: t) =
              '\n' :: stripSpacesAroundNLGo 0 true t := by
            simp [stripSpacesAroundNLGo]
          rw [e]
          exact nodbl_cons_intro ' ' ' ' '\n' _ (fun hx => absurd hx.1 (by decide))
            (ihT (noSeq_cons_tail _ _ _ h))
        · have e : stripSpacesAroundNLGo 0 true (c :: t) =
              c :: stripSpacesAroundNLGo 0 false t := by
            simp [stripSpacesAroundNLGo, hc, hn]
          rw [e]
          exact nodbl_cons_intro ' ' ' ' c _ (fun hx => hc hx.1)
            (ihF (noSeq_cons_tail _ _ _ h) 0 (by omega) (fun h0 => absurd h0 (by omega)))

theorem mem_sgo (c : Char) (l : List Char) : ∀ (pend : Nat) (aft : Bool),
    c ∈ stripSpacesAroundNLGo pend aft l → c = ' ' ∨ c ∈ l := by
  induction l with
  | nil =>
    intro pend aft h
    cases aft with
    | true => simp [stripSpacesAroundNLGo] at h
    | false =>
      simp only [stripSpacesAroundNLGo, if_neg Bool.false_ne_true] at h
      exact Or.inl (List.eq_of_mem_replicate h)
  | cons d t ih =>
    intro pend aft h
    cases aft with
    | true =>
      by_cases hd : d = ' '
      · subst hd
        simp only [stripSpacesAroundNLGo, if_pos rfl, if_pos rfl] at h
        rcases ih 0 true h with h1 | h1
        · exact Or.inl h1
        · exact Or.inr (List.mem_cons_of_mem _ h1)
      · by_cases hn : d = '\n'
        · subst hn
          have e : stripSpacesAroundNLGo pend true ('\n' :: t) =
              '\n' :: stripSpacesAroundNLGo 0 true t := by
            simp [stripSpacesAroundNLGo]
          rw [e] at h
          rcases List.mem_cons.mp h with rfl | h1
          · exact Or.inr (List.mem_cons_self _ _)
          · rcases ih 0 true h1 with h2 | h2
            · exact Or.inl h2
            · exact Or.inr (List.mem_cons_of_mem _ h2)
        · have e : stripSpacesAroundNLGo pend true (d :: t) =
              d :: stripSpacesAroundNLGo 0 false t := by
            simp [stripSpacesAroundNLGo, hd, hn]
          rw [e] at h
          rcases List.mem_cons.mp h with rfl | h1
          · exact Or.inr (List.mem_cons_self _ _)
          · rcases ih 0 false h1 with h2 | h2
            · exact Or.inl h2
            · exact Or.inr (List.mem_cons_of_mem _ h2)
    | false =>
      by_cases hd : d = ' '
      · subst hd
        have e : stripSpacesAroundNLGo pend false (' ' :: t) =
            stripSpacesAroundNLGo (pend + 1) false t := by
          simp [stripSpacesAroundNLGo]
        rw [e] at h
        rcases ih (pend + 1) false h with h1 | h1
        · exact Or.inl h1
        · exact Or.inr (List.mem_cons_of_mem _ h1)
      · by_cases hn : d = '\n'
        · subst hn
          have e : stripSpacesAroundNLGo pend false ('\n' :: t) =
              '\n' :: stripSpacesAroundNLGo 0 true t := by
            simp [stripSpacesAroundNLGo]
          rw [e] at h
          rcases List.mem_cons.mp h with rfl | h1
          · exact Or.inr (List.mem_cons_self _ _)
          · rcases ih 0 true h1 with h2 | h2
            · exact Or.inl h2
            · exact Or.inr (List.mem_cons_of_mem _ h2)
        · have e : stripSpacesAroundNLGo pend false (d :: t) =
              List.replicate pend ' ' ++ d :: stripSpacesAroundNLGo 0 false t := by
            simp [stripSpacesAroundNLGo, hd, hn]
          rw [e] at h
          rcases List.mem_append.mp h with h1 | h1
          · exact Or.inl (List.eq_of_mem_replicate h1)
          · rcases List.mem_cons.mp h1 with rfl | h2
            · exact Or.inr (List.mem_cons_self _ _)
            · rcases ih 0 false h2 with h3 | h3
              · exact Or.inl h3
              · exact Or.inr (List.mem_cons_of_mem _ h3)

theorem wsRunsOK_mono (l m : List Char) (h : wsRunsOK m) (hlm : l <:+: m) :
    wsRunsOK l := fun r hr hw => h r (hr.trans hlm) hw

theorem squeezeRun_id (r : List Char) (h : r.count '\n' ≤ 2) :
    squeezeRun r = r := by
  unfold squeezeRun
  rw [if_neg (by omega)]

theorem revTake_suffix (q : Char → Bool) (r : List Char) :
    (r.reverse.takeWhile q).reverse <:+ r := by
  have h1 : r.reverse.takeWhile q <+: r.reverse := List.takeWhile_prefix q
  have h2 := List.reverse_suffix.mpr h1
  simpa using h2

theorem mem_squeezeRun (c : Char) (r : List Char) (h : c ∈ squeezeRun r) :
    c = '\n' ∨ c ∈ r := by
  unfold squeezeRun at h
  by_cases h3 : 3 ≤ r.count '\n'
  · rw [if_pos h3] at h
    rcases List.mem_append.mp h with h1 | h1
    · exact Or.inr ((List.takeWhile_prefix _).sublist.subset h1)
    · rcases List.mem_cons.mp h1 with rfl | h2
      · exact Or.inl rfl
      · rcases List.mem_cons.mp h2 with rfl | h4
        · exact Or.inl rfl
        · exact Or.inr ((revTake_suffix _ r).sublist.subset h4)
  · rw [if_neg h3] at h
    exact Or.inr h

theorem nodbl_squeezeRun (r : List Char) (h : containsSeq [' ', ' '] r = false) :
    containsSeq [' ', ' '] (squeezeRun r) = false := by
  unfold squeezeRun
  by_cases h3 : 3 ≤ r.count '\n'
  · rw [if_pos h3]
    by_contra hcc
    rcases dbl_append_decomp ' ' ' ' _ _ (bool_ne_false _ hcc) with h1 | h1 | ⟨-, h1⟩
    · have := noSeq_mono [' ', ' '] (r.takeWhile (fun c => ¬ c = '\n')) r h
        (List.takeWhile_prefix _).isInfix
      rw [this] at h1
      exact Bool.false_ne_true h1
    · rcases (dbl_cons_iff _ _ _ _).mp h1 with ⟨he, -⟩ | h2
      · exact absurd he (by decide)
      · rcases (dbl_cons_iff _ _ _ _).mp h2 with ⟨he, -⟩ | h4
        · exact absurd he (by decide)
        · have := noSeq_mono [' ', ' ']
            ((r.reverse.takeWhile (fun c => ¬ c = '\n')).reverse) r h
            (revTake_suffix (fun c => ¬ c = '\n') r).isInfix
          rw [this] at h4
          exact Bool.false_ne_true h4
    · simp at h1
  · rw [if_neg h3]
    exact h

theorem nlgo_id (l : List Char) : ∀ acc : List Char,
    (∀ c ∈ acc, isPyWs c = true) → wsRunsOK (acc.reverse ++ l) →
    collapseNLRunsGo acc l = acc.reverse ++ l := by
  induction l with
  | nil =>
    intro acc hws hok
    show squeezeRun acc.reverse = _
    rw [List.append_nil] at hok ⊢
    exact squeezeRun_id _ (hok acc.reverse (List.infix_refl _)
      (fun c hc => hws c (List.mem_reverse.mp hc)))
  | cons c t ih =>
    intro acc hws hok
    by_cases hc : isPyWs c
    · have e : collapseNLRunsGo acc (c :: t) = collapseNLRunsGo (c :: acc) t := by
        simp [collapseNLRunsGo, hc]
      have hre : (c :: acc).reverse ++ t = acc.reverse ++ c :: t := by
        rw [List.reverse_cons, List.append_assoc]
        rfl
      rw [e, ih (c :: acc) ?_ (by rwa [hre])]
      · exact hre
      · intro d hd
        rcases List.mem_cons.mp hd with rfl | hd
        · exact hc
        · exact hws d hd
    · have e : collapseNLRunsGo acc (c :: t) =
          squeezeRun acc.reverse ++ c :: collapseNLRunsGo [] t := by
        simp [collapseNLRunsGo, hc]
      rw [e]
      have h1 : squeezeRun acc.reverse = acc.reverse := by
        apply squeezeRun_id
        refine hok acc.reverse ((acc.reverse.prefix_append (c :: t)).isInfix) ?_
        exact fun d hd => hws d (List.mem_reverse.mp hd)
      have h2 : collapseNLRunsGo [] t = t := by
        have := ih [] (by simp) (wsRunsOK_mono t _ hok ?_)
        · simpa using this
        · exact ((List.suffix_cons c t).trans (List.suffix_append _ _)).isInfix
      rw [h1, h2]

theorem collapseNLRuns_id (l : List Char) (h : wsRunsOK l) :
    collapseNLRuns l = l := by
  have := nlgo_id l [] (by simp) (by simpa using h)
  simpa using this

theorem nlgo_nodbl (l : List Char) : ∀ acc : List Char,
    containsSeq [' ', ' '] (acc.reverse ++ l) = false →
    containsSeq [' ', ' '] (collapseNLRunsGo acc l) = false := by
  induction l with
  | nil =>
    intro acc h
    rw [List.append_nil] at h
    exact nodbl_squeezeRun _ h
  | cons c t ih =>
    intro acc h
    by_cases hc : isPyWs c
    · have e : collapseNLRunsGo acc (c :: t) = collapseNLRunsGo (c :: acc) t := by
        simp [collapseNLRunsGo, hc]
      have hre : (c :: acc).reverse ++ t = acc.reverse ++ c :: t := by
        rw [List.reverse_cons, List.append_assoc]
        rfl
      rw [e]
      exact ih (c :: acc) (by rwa [hre])
    · have e : collapseNLRunsGo acc (c :: t) =
          squeezeRun acc.reverse ++ c :: collapseNLRunsGo [] t := by
        simp [collapseNLRunsGo, hc]
      rw [e]
      have hcs : ¬ c = ' ' := fun he => hc (by rw [he]; decide)
      have hacc : containsSeq [' ', ' '] acc.reverse = false :=
        noSeq_mono _ _ _ h (acc.reverse.prefix_append (c :: t)).isInfix
      have ht : containsSeq [' ', ' '] t = false :=
        noSeq_mono _ _ _ h
          ((List.suffix_cons c t).trans (List.suffix_append _ _)).isInfix
      by_contra hcc
      rcases dbl_append_decomp ' ' ' ' _ _ (bool_ne_false _ hcc) with h1 | h1 | ⟨-, h1⟩
      · rw [nodbl_squeezeRun _ hacc] at h1
        exact Bool.false_ne_true h1
      · rcases (dbl_cons_iff _ _ _ _).mp h1 with ⟨he, -⟩ | h2
        · exact hcs he
        · have := ih [] (by simpa using ht)
          rw [this] at h2
          exact Bool.false_ne_true h2
      · simp at h1
        exact hcs h1

theorem mem_nlgo (c : Char) (l : List Char) : ∀ acc : List Char,
    c ∈ collapseNLRunsGo acc l → c = '\n' ∨ c ∈ acc ∨ c ∈ l := by
  induction l with
  | nil =>
    intro acc h
    rcases mem_squeezeRun c _ h with h1 | h1
    · exact Or.inl h1
    · exact Or.inr (Or.inl (List.mem_reverse.mp h1))
  | cons d t ih =>
    intro acc h
    by_cases hd : isPyWs d
    · have e : collapseNLRunsGo acc (d :: t) = collapseNLRunsGo (d :: acc) t := by
        simp [collapseNLRunsGo, hd]
      rw [e] at h
      rcases ih (d :: acc) h with h1 | h1 | h1
      · exact Or.inl h1
      · rcases List.mem_cons.mp h1 with rfl | h2
        · exact Or.inr (Or.inr (List.mem_cons_self _ _))
        · exact Or.inr (Or.inl h2)
      · exact Or.inr (Or.inr (List.mem_cons_of_mem _ h1))
    · have e : collapseNLRunsGo acc (d :: t) =
          squeezeRun acc.reverse ++ d :: collapseNLRunsGo [] t := by
        simp [collapseNLRunsGo, hd]
      rw [e] at h
      rcases List.mem_append.mp h with h1 | h1
      · rcases mem_squeezeRun c _ h1 with h2 | h2
        · exact Or.inl h2
        · exact Or.inr (Or.inl (List.mem_reverse.mp h2))
      · rcases List.mem_cons.mp h1 with rfl | h2
        · exact Or.inr (Or.inr (List.mem_cons_self _ _))
        · rcases ih [] h2 with h3 | h3 | h3
          · exact Or.inl h3
          · simp at h3
          · exact Or.inr (Or.inr (List.mem_cons_of_mem _ h3))

theorem mem_takeWhile_pred (q : α → Bool) (l : List α) (a : α)
    (h : a ∈ l.takeWhile q) : q a = true := by
  induction l with
  | nil => simp at h
  | cons x t ih =>
    by_cases hx : q x
    · rw [List.takeWhile_cons_of_pos hx] at h
      rcases List.mem_cons.mp h with rfl | h1
      · exact hx
      · exact ih h1
    · rw [List.takeWhile_cons_of_neg hx] at h
      simp at h

theorem prefix_head (p2 : List α) (x : α) (X : List α)
    (h : p2 <+: x :: X) (hne : p2 ≠ []) : p2.head? = some x := by
  cases p2 with
  | nil => exact absurd rfl hne
  | cons a u =>
    rw [List.cons_prefix_cons] at h
    rw [h.1]
    rfl

theorem replicate_prefix_replicate (p : α) (m n : Nat) (h : m ≤ n) :
    List.replicate m p <+: List.replicate n p :=
  ⟨List.replicate (n - m) p, by rw [← List.replicate_add]; congr 1; omega⟩

theorem capFlush_rep (p : Char) (lo k : Nat) :
    ∃ m, capFlush p lo k = List.replicate m p := by
  unfold capFlush
  by_cases h : lo ≤ k
  · exact ⟨3, if_pos h⟩
  · exact ⟨k, if_neg h⟩

theorem capFlush_id (p : Char) (lo k : Nat) (hk : k ≤ 3) (hlo : 3 ≤ lo) :
    capFlush p lo k = List.replicate k p := by
  unfold capFlush
  by_cases h : lo ≤ k
  · have : k = 3 := by omega
    rw [if_pos h, this]
  · exact if_neg h

theorem capFlush_le3 (p : Char) (lo k : Nat) (h3 : 3 ≤ lo) (h4 : lo ≤ 4) :
    (capFlush p lo k).length ≤ 3 := by
  unfold capFlush
  by_cases h : lo ≤ k
  · rw [if_pos h, List.length_replicate]
  · rw [if_neg h, List.length_replicate]
    omega

theorem capFlush_zero (p : Char) (lo : Nat) (h3 : 3 ≤ lo) :
    capFlush p lo 0 = [] := by
  unfold capFlush
  rw [if_neg (by omega)]
  rfl

theorem capFlush_head (p : Char) (lo k : Nat) (hk : 1 ≤ k) :
    (capFlush p lo k).head? = some p := by
  unfold capFlush
  by_cases h : lo ≤ k
  · rw [if_pos h]
    rfl
  · rw [if_neg h]
    rcases k with _ | k'
    · omega
    · rw [List.replicate_succ]
      rfl

theorem tw_bound (p : Char) (l : List Char)
    (h : containsSeq (List.replicate 4 p) l = false) :
    (l.takeWhile (fun c => c = p)).length ≤ 3 := by
  by_contra hlen
  have h4 : 4 ≤ (l.takeWhile (fun c => c = p)).length := by omega
  have hall : ∀ b ∈ l.takeWhile (fun c => c = p), b = p := by
    intro b hb
    have := mem_takeWhile_pred _ _ _ hb
    exact of_decide_eq_true this
  have heq := List.eq_replicate_of_mem hall
  have hpre : List.replicate 4 p <+: l.takeWhile (fun c => c = p) := by
    rw [heq]
    exact replicate_prefix_replicate p 4 _ h4
  have hinf : List.replicate 4 p <:+: l :=
    (hpre.trans (List.takeWhile_prefix _)).isInfix
  rw [(containsSeq_iff _ _).mpr hinf] at h
  exact Bool.true_eq_false.mp h

theorem capPunctGo_nil (p : Char) (lo k : Nat) :
    capPunctGo p lo k [] = capFlush p lo k := rfl

theorem capPunctGo_pos (p : Char) (lo k : Nat) (c : Char) (t : List Char)
    (hc : c = p) : capPunctGo p lo k (c :: t) = capPunctGo p lo (k + 1) t := by
  simp [capPunctGo, hc]

theorem capPunctGo_neg (p : Char) (lo k : Nat) (c : Char) (t : List Char)
    (hc : ¬ c = p) :
    capPunctGo p lo k (c :: t) = capFlush p lo k ++ c :: capPunctGo p lo 0 t := by
  simp [capPunctGo, hc]

theorem cap_go_id (p : Char) (lo : Nat) (l : List Char) : ∀ k : Nat, 3 ≤ lo →
    containsSeq (List.replicate 4 p) l = false →
    k + (l.takeWhile (fun c => c = p)).length ≤ 3 →
    capPunctGo p lo k l = List.replicate k p ++ l := by
  induction l with
  | nil =>
    intro k hlo h hb
    rw [capPunctGo_nil, capFlush_id p lo k (by simpa using hb) hlo, List.append_nil]
  | cons c t ih =>
    intro k hlo h hb
    by_cases hc : c = p
    · rw [capPunctGo_pos p lo k c t hc]
      have htw : (c :: t).takeWhile (fun c => c = p) =
          c :: t.takeWhile (fun c => c = p) :=
        List.takeWhile_cons_of_pos (by simpa using hc)
      rw [htw, List.length_cons] at hb
      rw [ih (k + 1) hlo (noSeq_cons_tail _ _ _ h) (by omega)]
      rw [List.replicate_succ', hc, List.append_assoc]
      rfl
    · rw [capPunctGo_neg p lo k c t hc]
      have htw : (c :: t).takeWhile (fun c => c = p) = [] :=
        List.takeWhile_cons_of_neg (by simpa using hc)
      rw [htw] at hb
      rw [capFlush_id p lo k (by simpa using hb) hlo]
      rw [ih 0 hlo (noSeq_cons_tail _ _ _ h)
        (by simpa using tw_bound p t (noSeq_cons_tail _ _ _ h))]
      rfl

theorem capPunct_id (p : Char) (lo : Nat) (l : List Char) (hlo : 3 ≤ lo)
    (h : containsSeq (List.replicate 4 p) l = false) : capPunct p lo l = l := by
  have := cap_go_id p lo l 0 hlo h
    (by simpa using tw_bound p l h)
  simpa using this

theorem noSeq_long (pat l : List Char) (h : l.length < pat.length) :
    containsSeq pat l = false := by
  by_contra hcc
  have hinf := (containsSeq_iff _ _).mp (bool_ne_false _ hcc)
  have := hinf.sublist.length_le
  omega

theorem go_pos_head (p : Char) (lo : Nat) (t : List Char) : ∀ k : Nat, 1 ≤ k →
    (capPunctGo p lo k t).head? = some p := by
  induction t with
  | nil =>
    intro k hk
    rw [capPunctGo_nil]
    exact capFlush_head p lo k hk
  | cons c t ih =>
    intro k hk
    by_cases hc : c = p
    · rw [capPunctGo_pos p lo k c t hc]
      exact ih (k + 1) (by omega)
    · rw [capPunctGo_neg p lo k c t hc]
      have hh := capFlush_head p lo k hk
      cases hcf : capFlush p lo k with
      | nil => rw [hcf] at hh; simp at hh
      | cons a u =>
        rw [hcf] at hh
        have ha : a = p := by simpa using hh
        rw [List.cons_append, ha]
        rfl

theorem cap_go_nofour (p : Char) (lo : Nat) (l : List Char) : ∀ k : Nat,
    3 ≤ lo → lo ≤ 4 →
    containsSeq (List.replicate 4 p) (capPunctGo p lo k l) = false := by
  induction l with
  | nil =>
    intro k h3 h4
    rw [capPunctGo_nil]
    refine noSeq_long _ _ ?_
    rw [List.length_replicate]
    have := capFlush_le3 p lo k h3 h4
    omega
  | cons c t ih =>
    intro k h3 h4
    by_cases hc : c = p
    · rw [capPunctGo_pos p lo k c t hc]
      exact ih (k + 1) h3 h4
    · rw [capPunctGo_neg p lo k c t hc]
      by_contra hcc
      have hinf := (containsSeq_iff _ _).mp (bool_ne_false _ hcc)
      rcases infix_append_decomp _ _ _ hinf with h1 | h1 | ⟨p1, p2, heq, hp1, hp2, hs, hp⟩
      · have hlen1 := h1.sublist.length_le
        have hlen2 := capFlush_le3 p lo k h3 h4
        rw [List.length_replicate] at hlen1
        omega
      · rcases List.infix_cons_iff.mp h1 with hpre | hinf2
        · have hh := prefix_head _ _ _ hpre (by simp [List.replicate_succ])
          rw [show (List.replicate 4 p) = p :: List.replicate 3 p from rfl] at hh
          exact hc (Option.some.inj hh).symm
        · have := ih 0 h3 h4
          rw [(containsSeq_iff _ _).mpr hinf2] at this
          exact Bool.true_eq_false.mp this
      · have hh := prefix_head _ _ _ hp hp2
        cases hp2c : p2 with
        | nil => exact absurd hp2c hp2
        | cons a u =>
          rw [hp2c] at hh
          have hac : a = c := by simpa using hh
          have hmem : a ∈ List.replicate 4 p := by
            rw [heq, hp2c]
            exact List.mem_append_right p1 (List.mem_cons_self a u)
          have := List.eq_of_mem_replicate hmem
          exact hc (hac.symm.trans this)

theorem prefq (p q : Char) (lo : Nat) (l : List Char) : ∀ j : Nat, 3 ≤ lo →
    ¬ q = p → List.replicate j q <+: capPunctGo p lo 0 l →
    List.replicate j q <+: l := by
  induction l with
  | nil =>
    intro j hlo hqp hp
    rw [capPunctGo_nil, capFlush_zero p lo hlo] at hp
    rw [List.prefix_nil.mp hp]
  | cons c t ih =>
    intro j hlo hqp hp
    by_cases hc : c = p
    · rw [capPunctGo_pos p lo 0 c t hc] at hp
      rcases j with _ | j'
      · exact List.nil_prefix
      · have hh := go_pos_head p lo t 1 (by omega)
        cases hgo : capPunctGo p lo 1 t with
        | nil =>
          rw [hgo] at hp
          rw [List.prefix_nil] at hp
          exact absurd hp (by simp [List.replicate_succ])
        | cons a u =>
          rw [hgo] at hp hh
          have ha : a = p := by simpa using hh
          rw [List.replicate_succ, List.cons_prefix_cons] at hp
          exact absurd (hp.1.trans ha) hqp
    · rw [capPunctGo_neg p lo 0 c t hc, capFlush_zero p lo hlo,
        List.nil_append] at hp
      rcases j with _ | j'
      · exact List.nil_prefix
      · rw [List.replicate_succ, List.cons_prefix_cons] at hp
        obtain ⟨hqc, htail⟩ := hp
        have hres := ih j' hlo hqp htail
        rw [List.replicate_succ, ← hqc]
        exact List.cons_prefix_cons.mpr ⟨rfl, hres⟩

theorem capq (p q : Char) (lo n : Nat) (l : List Char) : ∀ k : Nat, 3 ≤ lo →
    ¬ q = p → 1 ≤ n → containsSeq (List.replicate n q) l = false →
    containsSeq (List.replicate n q) (capPunctGo p lo k l) = false := by
  induction l with
  | nil =>
    intro k hlo hqp hn h
    rw [capPunctGo_nil]
    obtain ⟨m, hm⟩ := capFlush_rep p lo k
    rw [hm]
    refine noSeq_replicate _ _ _ (by simp; omega) ?_
    intro hmem
    exact hqp (List.eq_of_mem_replicate hmem).symm
  | cons c t ih =>
    intro k hlo hqp hn h
    by_cases hc : c = p
    · rw [capPunctGo_pos p lo k c t hc]
      exact ih (k + 1) hlo hqp hn (noSeq_cons_tail _ _ _ h)
    · rw [capPunctGo_neg p lo k c t hc]
      by_contra hcc
      have hinf := (containsSeq_iff _ _).mp (bool_ne_false _ hcc)
      rcases infix_append_decomp _ _ _ hinf with h1 | h1 | ⟨p1, p2, heq, hp1, hp2, hs, hp⟩
      · obtain ⟨m, hm⟩ := capFlush_rep p lo k
        rw [hm] at h1
        have := noSeq_replicate (List.replicate n q) p m (by simp; omega)
          (fun hmem => hqp (List.eq_of_mem_replicate hmem).symm)
        rw [(containsSeq_iff _ _).mpr h1] at this
        exact Bool.true_eq_false.mp this
      · rcases List.infix_cons_iff.mp h1 with hpre | hinf2
        · rcases n with _ | n'
          · omega
          · rw [List.replicate_succ, List.cons_prefix_cons] at hpre
            obtain ⟨hqc, htail⟩ := hpre
            have hres := prefq p q lo t n' hlo hqp htail
            have hfull : List.replicate (n' + 1) q <+: c :: t := by
              rw [List.replicate_succ, ← hqc]
              exact List.cons_prefix_cons.mpr ⟨rfl, hres⟩
            rw [(containsSeq_iff _ _).mpr hfull.isInfix] at h
            exact Bool.true_eq_false.mp h
        · have := ih 0 hlo hqp hn (noSeq_cons_tail _ _ _ h)
          rw [(containsSeq_iff _ _).mpr hinf2] at this
          exact Bool.true_eq_false.mp this
      · cases hp1c : p1 with
        | nil => exact absurd hp1c hp1
        | cons a u =>
          obtain ⟨m, hm⟩ := capFlush_rep p lo k
          rw [hm, hp1c] at hs
          have hap : a = p :=
            List.eq_of_mem_replicate (hs.sublist.subset (List.mem_cons_self a u))
          have haq : a = q := by
            have hmem : a ∈ List.replicate n q := by
              rw [heq, hp1c]
              exact List.mem_append_left p2 (List.mem_cons_self a u)
            exact List.eq_of_mem_replicate hmem
          exact hqp (haq ▸ hap)

theorem mem_capPunctGo (p : Char) (lo : Nat) (c : Char) (l : List Char) :
    ∀ k : Nat, c ∈ capPunctGo p lo k l → c = p ∨ c ∈ l := by
  induction l with
  | nil =>
    intro k h
    rw [capPunctGo_nil] at h
    obtain ⟨m, hm⟩ := capFlush_rep p lo k
    rw [hm] at h
    exact Or.inl (List.eq_of_mem_replicate h)
  | cons d t ih =>
    intro k h
    by_cases hd : d = p
    · rw [capPunctGo_pos p lo k d t hd] at h
      rcases ih (k + 1) h with h1 | h1
      · exact Or.inl h1
      · exact Or.inr (List.mem_cons_of_mem _ h1)
    · rw [capPunctGo_neg p lo k d t hd] at h
      rcases List.mem_append.mp h with h1 | h1
      · obtain ⟨m, hm⟩ := capFlush_rep p lo k
        rw [hm] at h1
        exact Or.inl (List.eq_of_mem_replicate h1)
      · rcases List.mem_cons.mp h1 with rfl | h2
        · exact Or.inr (List.mem_cons_self _ _)
        · rcases ih 0 h2 with h3 | h3
          · exact Or.inl h3
          · exact Or.inr (List.mem_cons_of_mem _ h3)

theorem mem_of_head? (xs : List α) (h : α) (hh : xs.head? = some h) : h ∈ xs := by
  cases xs with
  | nil => simp at hh
  | cons a u =>
    simp at hh
    rw [hh]
    exact List.mem_cons_self _ _

theorem splitLines_ne_nil (w : List Char) : splitLines w ≠ [] := by
  induction w with
  | nil => simp [splitLines]
  | cons c t ih =>
    by_cases hc : c = '\n'
    · simp [splitLines, hc]
    · simp only [splitLines, if_neg hc]
      cases hsp : splitLines t with
      | nil => simp
      | cons h r => simp

theorem splitLines_no_nl (w : List Char) : ∀ l ∈ splitLines w, '\n' ∉ l := by
  induction w with
  | nil =>
    intro l hl
    simp [splitLines] at hl
    simp [hl]
  | cons c t ih =>
    intro l hl
    by_cases hc : c = '\n'
    · rw [hc] at hl
      simp only [splitLines, if_pos rfl] at hl
      rcases List.mem_cons.mp hl with rfl | hl2
      · simp
      · exact ih l hl2
    · simp only [splitLines, if_neg hc] at hl
      cases hsp : splitLines t with
      | nil => exact absurd hsp (splitLines_ne_nil t)
      | cons h r =>
        rw [hsp] at hl
        rcases List.mem_cons.mp hl with rfl | hl2
        · intro hm
          rcases List.mem_cons.mp hm with he | hm2
          · exact hc he.symm
          · exact ih h (hsp ▸ List.mem_cons_self h r) hm2
        · exact ih l (hsp ▸ List.mem_cons_of_mem h hl2)

theorem splitLines_head (w : List Char) :
    (splitLines w).head? = some (w.takeWhile (fun c => ¬ c = '\n')) := by
  induction w with
  | nil => rfl
  | cons c t ih =>
    by_cases hc : c = '\n'
    · subst hc
      simp only [splitLines, if_pos rfl]
      rw [List.takeWhile_cons_of_neg (by simp)]
      rfl
    · simp only [splitLines, if_neg hc]
      cases hsp : splitLines t with
      | nil => exact absurd hsp (splitLines_ne_nil t)
      | cons h r =>
        rw [hsp] at ih
        simp at ih
        rw [List.takeWhile_cons_of_pos (by simpa using hc)]
        simp [ih]

theorem prefix_nl_free_takeWhile (r w : List Char) (hp : r <+: w)
    (hnl : '\n' ∉ r) : r <+: w.takeWhile (fun c => ¬ c = '\n') := by
  induction r generalizing w with
  | nil => exact List.nil_prefix
  | cons a r' ih =>
    cases w with
    | nil => exact absurd (List.prefix_nil.mp hp) (by simp)
    | cons b w' =>
      rw [List.cons_prefix_cons] at hp
      obtain ⟨rfl, hp'⟩ := hp
      have ha : ¬ a = '\n' := fun he => hnl (he ▸ List.mem_cons_self a r')
      rw [List.takeWhile_cons_of_pos (by simpa using ha)]
      exact List.cons_prefix_cons.mpr ⟨rfl, ih w' hp' (fun hm => hnl (List.mem_cons_of_mem a hm))⟩

theorem splitLines_mem_isInfix (w : List Char) : ∀ l ∈ splitLines w, l <:+: w := by
  induction w with
  | nil =>
    intro l hl
    simp [splitLines] at hl
    simp [hl]
  | cons c t ih =>
    intro l hl
    by_cases hc : c = '\n'
    · rw [hc] at hl ⊢
      simp only [splitLines, if_pos rfl] at hl
      rcases List.mem_cons.mp hl with rfl | hl2
      · exact List.nil_infix
      · exact (ih l hl2).trans (List.suffix_cons '\n' t).isInfix
    · simp only [splitLines, if_neg hc] at hl
      cases hsp : splitLines t with
      | nil => exact absurd hsp (splitLines_ne_nil t)
      | cons h r =>
        rw [hsp] at hl
        rcases List.mem_cons.mp hl with rfl | hl2
        · have hh : h = t.takeWhile (fun c => ¬ c = '\n') := by
            have := splitLines_head t
            rw [hsp] at this
            simpa using this
          have : h <+: t := hh ▸ List.takeWhile_prefix _
          exact (List.cons_prefix_cons.mpr ⟨rfl, this⟩).isInfix
        · exact (ih l (hsp ▸ List.mem_cons_of_mem h hl2)).trans
            (List.suffix_cons c t).isInfix

theorem nl_free_infix_line (r w : List Char) (hr : r <:+: w) (hnl : '\n' ∉ r) :
    ∃ l ∈ splitLines w, r <:+: l := by
  induction w with
  | nil =>
    rw [List.infix_nil] at hr
    subst hr
    exact ⟨[], by simp [splitLines], List.infix_refl _⟩
  | cons c t ih =>
    rcases List.infix_cons_iff.mp hr with hpre | hinf
    · refine ⟨(c :: t).takeWhile (fun c => ¬ c = '\n'), ?_, ?_⟩
      · exact mem_of_head? _ _ (splitLines_head (c :: t))
      · exact (prefix_nl_free_takeWhile r (c :: t) hpre hnl).isInfix
    · obtain ⟨l, hl, hrl⟩ := ih hinf
      by_cases hc : c = '\n'
      · subst hc
        refine ⟨l, ?_, hrl⟩
        simp only [splitLines, if_pos rfl]
        exact List.mem_cons_of_mem _ hl
      · cases hsp : splitLines t with
        | nil => exact absurd hsp (splitLines_ne_nil t)
        | cons h r2 =>
          rw [hsp] at hl
          rcases List.mem_cons.mp hl with rfl | hl2
          · refine ⟨c :: l, ?_, hrl.trans (List.suffix_cons c l).isInfix⟩
            simp only [splitLines, if_neg hc, hsp]
            exact List.mem_cons_self _ _
          · refine ⟨l, ?_, hrl⟩
            simp only [splitLines, if_neg hc, hsp]
            exact List.mem_cons_of_mem _ hl2

theorem joinLines_cons (l : List Char) (rest : List (List Char)) (h : rest ≠ []) :
    joinLines (l :: rest) = l ++ '\n' :: joinLines rest := by
  cases rest with
  | nil => exact absurd rfl h
  | cons m r => rfl

theorem splitLines_append_nl (a r : List Char) (h : '\n' ∉ a) :
    splitLines (a ++ '\n' :: r) = a :: splitLines r := by
  induction a with
  | nil => simp [splitLines]
  | cons x a' ih =>
    have hx : ¬ x = '\n' := fun he => h (he ▸ List.mem_cons_self x a')
    rw [List.cons_append]
    simp only [splitLines, if_neg hx]
    rw [ih (fun hm => h (List.mem_cons_of_mem x hm))]

theorem splitLines_nonl (a : List Char) (h : '\n' ∉ a) : splitLines a = [a] := by
  induction a with
  | nil => rfl
  | cons x a' ih =>
    have hx : ¬ x = '\n' := fun he => h (he ▸ List.mem_cons_self x a')
    simp only [splitLines, if_neg hx]
    rw [ih (fun hm => h (List.mem_cons_of_mem x hm))]

theorem split_join (ls : List (List Char)) (hne : ls ≠ [])
    (hnl : ∀ l ∈ ls, '\n' ∉ l) : splitLines (joinLines ls) = ls := by
  induction ls with
  | nil => exact absurd rfl hne
  | cons l rest ih =>
    by_cases h0 : rest = []
    · subst h0
      show splitLines (joinLines [l]) = [l]
      exact splitLines_nonl l (hnl l (List.mem_cons_self _ _))
    · rw [joinLines_cons l rest h0,
        splitLines_append_nl l _ (hnl l (List.mem_cons_self _ _)),
        ih h0 (fun m hm => hnl m (List.mem_cons_of_mem l hm))]

theorem joinLines_mem (c : Char) (ls : List (List Char)) (h : c ∈ joinLines ls) :
    (∃ l ∈ ls, c ∈ l) ∨ c = '\n' := by
  induction ls with
  | nil => simp [joinLines] at h
  | cons l rest ih =>
    by_cases h0 : rest = []
    · subst h0
      exact Or.inl ⟨l, List.mem_cons_self _ _, h⟩
    · rw [joinLines_cons l rest h0] at h
      rcases List.mem_append.mp h with h1 | h1
      · exact Or.inl ⟨l, List.mem_cons_self _ _, h1⟩
      · rcases List.mem_cons.mp h1 with rfl | h2
        · exact Or.inr rfl
        · rcases ih h2 with ⟨m, hm, hc⟩ | h3
          · exact Or.inl ⟨m, List.mem_cons_of_mem l hm, hc⟩
          · exact Or.inr h3

theorem joinLines_head (l : List Char) (rest : List (List Char)) (h : l ≠ []) :
    (joinLines (l :: rest)).head? = l.head? := by
  by_cases h0 : rest = []
  · subst h0
    rfl
  · rw [joinLines_cons l rest h0]
    cases l with
    | nil => exact absurd rfl h
    | cons a u => rfl

theorem joinLines_concat (ls : List (List Char)) (y : List Char) (h : ls ≠ []) :
    joinLines (ls ++ [y]) = joinLines ls ++ '\n' :: y := by
  induction ls with
  | nil => exact absurd rfl h
  | cons l rest ih =>
    by_cases h0 : rest = []
    · subst h0
      rfl
    · have h1 : rest ++ [y] ≠ [] := by simp
      rw [List.cons_append, joinLines_cons l _ h1, ih h0,
        joinLines_cons l rest h0, List.append_assoc]
      rfl

theorem join_reverse (ls : List (List Char)) :
    (joinLines ls).reverse = joinLines ((ls.map List.reverse).reverse) := by
  induction ls with
  | nil => rfl
  | cons l rest ih =>
    by_cases h0 : rest = []
    · subst h0
      rfl
    · have h1 : (rest.map List.reverse).reverse ≠ [] := by
        simp
        intro hc
        exact absurd hc h0
      rw [joinLines_cons l rest h0, List.reverse_append, List.reverse_cons,
        List.map_cons, List.reverse_cons, joinLines_concat _ _ h1, ← ih,
        List.append_assoc]
      rfl

theorem filterShortLines_mem (ls : List (List Char)) (l : List Char)
    (h : l ∈ filterShortLines ls) :
    (∃ l0 ∈ ls, l = pyStrip l0) ∧ keepLine l = true := by
  unfold filterShortLines at h
  rw [List.mem_filter] at h
  obtain ⟨hmap, hk⟩ := h
  obtain ⟨l0, hl0, rfl⟩ := List.mem_map.mp hmap
  exact ⟨⟨l0, hl0, rfl⟩, hk⟩

theorem filterShortLines_id (ls : List (List Char))
    (h : ∀ l ∈ ls, pyStrip l = l ∧ keepLine l = true) : filterShortLines ls = ls := by
  unfold filterShortLines
  rw [List.map_congr_left (g := id) (fun l hl => (h l hl).1), List.map_id]
  exact List.filter_eq_self.mpr (fun l hl => (h l hl).2)

theorem ceGo_mem (l : List Char) (ls : List (List Char)) : ∀ flag : Bool,
    l ∈ collapseEmptiesGo flag ls → l ∈ ls := by
  induction ls with
  | nil => intro flag h; cases flag <;> simp [collapseEmptiesGo] at h
  | cons m t ih =>
    intro flag h
    by_cases hm : m = ([] : List Char)
    · subst hm
      cases flag with
      | true =>
        simp only [collapseEmptiesGo, if_pos rfl, if_pos rfl] at h
        exact List.mem_cons_of_mem _ (ih true h)
      | false =>
        simp only [collapseEmptiesGo, if_pos rfl, if_neg Bool.false_ne_true] at h
        rcases List.mem_cons.mp h with rfl | h1
        · exact List.mem_cons_self _ _
        · exact List.mem_cons_of_mem _ (ih true h1)
    · simp only [collapseEmptiesGo, if_neg hm] at h
      rcases List.mem_cons.mp h with rfl | h1
      · exact List.mem_cons_self _ _
      · exact List.mem_cons_of_mem _ (ih false h1)

theorem ceGo_true_eq (ls : List (List Char)) (h : ls.head? ≠ some []) :
    collapseEmptiesGo true ls = collapseEmptiesGo false ls := by
  cases ls with
  | nil => rfl
  | cons m t =>
    have hm : ¬ m = ([] : List Char) := fun he => h (by simp [he])
    simp [collapseEmptiesGo, hm]

theorem ce_go_id (ls : List (List Char))
    (h : List.Chain' (fun a b => a ≠ ([] : List Char) ∨ b ≠ []) ls) :
    collapseEmptiesGo false ls = ls := by
  induction ls with
  | nil => rfl
  | cons m t ih =>
    obtain ⟨hhead, htail⟩ := List.chain'_cons'.mp h
    by_cases hm : m = ([] : List Char)
    · subst hm
      have e : collapseEmptiesGo false ([] :: t) = [] :: collapseEmptiesGo true t := by
        simp [collapseEmptiesGo]
      rw [e, ceGo_true_eq t ?_, ih htail]
      intro he
      cases ht : t.head? with
      | none => rw [ht] at he; simp at he
      | some x =>
        rw [ht] at he
        have hx : x = [] := by simpa using he
        rcases hhead x ht with h1 | h1
        · exact h1 rfl
        · exact h1 hx
    · have e : collapseEmptiesGo false (m :: t) = m :: collapseEmptiesGo false t := by
        simp [collapseEmptiesGo, hm]
      rw [e, ih htail]

theorem ce_go_props (ls : List (List Char)) :
    List.Chain' (fun a b => a ≠ ([] : List Char) ∨ b ≠ []) (collapseEmptiesGo false ls) ∧
    List.Chain' (fun a b => a ≠ ([] : List Char) ∨ b ≠ []) (collapseEmptiesGo true ls) ∧
    (collapseEmptiesGo true ls).head? ≠ some [] := by
  induction ls with
  | nil =>
    refine ⟨List.chain'_nil, List.chain'_nil, by simp [collapseEmptiesGo]⟩
  | cons m t ih =>
    obtain ⟨ihf, iht, ihh⟩ := ih
    by_cases hm : m = ([] : List Char)
    · subst hm
      have e1 : collapseEmptiesGo false ([] :: t) = [] :: collapseEmptiesGo true t := by
        simp [collapseEmptiesGo]
      have e2 : collapseEmptiesGo true ([] :: t) = collapseEmptiesGo true t := by
        simp [collapseEmptiesGo]
      refine ⟨?_, ?_, ?_⟩
      · rw [e1]
        refine List.chain'_cons'.mpr ⟨?_, iht⟩
        intro h hh
        exact Or.inr (fun he => ihh (by rw [hh, he]))
      · rw [e2]; exact iht
      · rw [e2]; exact ihh
    · have e1 : collapseEmptiesGo false (m :: t) = m :: collapseEmptiesGo false t := by
        simp [collapseEmptiesGo, hm]
      have e2 : collapseEmptiesGo true (m :: t) = m :: collapseEmptiesGo false t := by
        simp [collapseEmptiesGo, hm]
      refine ⟨?_, ?_, ?_⟩
      · rw [e1]
        exact List.chain'_cons'.mpr ⟨fun h _ => Or.inl hm, ihf⟩
      · rw [e2]
        exact List.chain'_cons'.mpr ⟨fun h _ => Or.inl hm, ihf⟩
      · rw [e2]
        simpa using hm

theorem trim_mem (ls : List (List Char)) (l : List Char)
    (h : l ∈ trimEmpties ls) : l ∈ ls := by
  unfold trimEmpties at h
  rw [List.mem_reverse] at h
  have h1 := (List.dropWhile_suffix (fun l => l = ([] : List Char))).sublist.subset h
  rw [List.mem_reverse] at h1
  exact (List.dropWhile_suffix _).sublist.subset h1

theorem chain_flip (ls : List (List Char))
    (h : List.Chain' (fun a b => a ≠ ([] : List Char) ∨ b ≠ []) ls) :
    List.Chain' (fun a b => a ≠ ([] : List Char) ∨ b ≠ []) ls.reverse := by
  rw [List.chain'_reverse]
  exact h.imp (fun a b hab => Or.symm hab)

theorem trim_chain (ls : List (List Char))
    (h : List.Chain' (fun a b => a ≠ ([] : List Char) ∨ b ≠ []) ls) :
    List.Chain' (fun a b => a ≠ ([] : List Char) ∨ b ≠ []) (trimEmpties ls) := by
  unfold trimEmpties
  apply chain_flip
  refine List.Chain'.suffix ?_ (List.dropWhile_suffix _)
  apply chain_flip
  exact List.Chain'.suffix h (List.dropWhile_suffix _)

theorem trim_ends (ls : List (List Char)) (hne : trimEmpties ls ≠ []) :
    (trimEmpties ls).head? ≠ some [] ∧ (trimEmpties ls).getLast? ≠ some [] := by
  unfold trimEmpties at hne ⊢
  constructor
  · intro hh
    rw [List.head?_reverse] at hh
    have hne2 : (ls.dropWhile (fun l => l = ([] : List Char))).reverse.dropWhile
        (fun l => l = ([] : List Char)) ≠ [] := by
      intro h0
      rw [h0] at hne
      exact hne rfl
    rw [suffix_getLast? _ _ (List.dropWhile_suffix _) hne2,
      List.getLast?_reverse] at hh
    have := dropWhile_head_not (fun l => l = ([] : List Char)) ls [] hh
    simp at this
  · intro hh
    rw [List.getLast?_reverse] at hh
    have := dropWhile_head_not (fun l => l = ([] : List Char)) _ [] hh
    simp at this

theorem dropWhile_join (ms : List (List Char))
    (h : ∀ l ∈ ms, l ≠ [] → ∃ hd t', l = hd :: t' ∧ isPyWs hd = false) :
    (joinLines ms).dropWhile isPyWs =
      joinLines (ms.dropWhile (fun l => l = ([] : List Char))) := by
  induction ms with
  | nil => rfl
  | cons l rest ih =>
    by_cases hl : l = ([] : List Char)
    · subst hl
      rw [List.dropWhile_cons_of_pos (by simp)]
      by_cases h0 : rest = []
      · subst h0
        rfl
      · rw [joinLines_cons [] rest h0, List.nil_append,
          List.dropWhile_cons_of_pos (by decide)]
        exact ih (fun m hm hmne => h m (List.mem_cons_of_mem _ hm) hmne)
    · obtain ⟨hd, t', rfl, hws⟩ := h l (List.mem_cons_self _ _) hl
      rw [List.dropWhile_cons_of_neg (by simp)]
      rw [dropWhile_eq_self_of_head]
      intro a ha
      rw [joinLines_head _ rest (by simp)] at ha
      simp at ha
      rw [← ha]
      exact hws

theorem dropWhile_map_rev (ls : List (List Char)) :
    (ls.map List.reverse).dropWhile (fun l => l = ([] : List Char)) =
      (ls.dropWhile (fun l => l = ([] : List Char))).map List.reverse := by
  induction ls with
  | nil => rfl
  | cons m t ih =>
    by_cases hm : m = ([] : List Char)
    · subst hm
      rw [List.map_cons, List.dropWhile_cons_of_pos (by simp),
        List.dropWhile_cons_of_pos (by simp)]
      exact ih
    · rw [List.map_cons, List.dropWhile_cons_of_neg (by simpa using hm),
        List.dropWhile_cons_of_neg (by simpa using hm), List.map_cons]

theorem strip_join (ms : List (List Char))
    (h : ∀ l ∈ ms, pyStrip l = l) :
    pyStrip (joinLines ms) = joinLines (trimEmpties ms) := by
  unfold pyStrip trimEmpties
  have cond1 : ∀ l ∈ ms, l ≠ [] → ∃ hd t', l = hd :: t' ∧ isPyWs hd = false := by
    intro l hl hlne
    cases l with
    | nil => exact absurd rfl hlne
    | cons a u =>
      exact ⟨a, u, rfl, pyStrip_head_not_ws _ (h _ hl) a rfl⟩
  rw [dropWhile_join ms cond1, join_reverse]
  have hrw : ((ms.dropWhile (fun l => l = ([] : List Char))).map List.reverse).reverse
      = ((ms.dropWhile (fun l => l = ([] : List Char))).reverse).map List.reverse := by
    rw [List.map_reverse]
  rw [hrw]
  have cond2 : ∀ l ∈ ((ms.dropWhile (fun l => l = ([] : List Char))).reverse).map
      List.reverse, l ≠ [] → ∃ hd t', l = hd :: t' ∧ isPyWs hd = false := by
    intro l hl hlne
    obtain ⟨m, hm, rfl⟩ := List.mem_map.mp hl
    have hmem : m ∈ ms := by
      rw [List.mem_reverse] at hm
      exact (List.dropWhile_suffix _).sublist.subset hm
    cases hrev : m.reverse with
    | nil => exact absurd hrev hlne
    | cons a u =>
      refine ⟨a, u, rfl, ?_⟩
      have hga : m.getLast? = some a := by
        rw [← List.head?_reverse, hrev]
        rfl
      exact pyStrip_last_not_ws m (h m hmem) a hga
  rw [dropWhile_join _ cond2, dropWhile_map_rev, join_reverse, List.map_map]
  have : (List.reverse ∘ List.reverse) =
      (id : List Char → List Char) := by
    funext x
    simp
  rw [this, List.map_id]

theorem mem_of_getLast? (l : List α) (a : α) (h : l.getLast? = some a) : a ∈ l := by
  rw [← List.head?_reverse] at h
  exact List.mem_reverse.mp (mem_of_head? _ _ h)

theorem prefix_head_head (p w : List α) (a : α) (h : p <+: w)
    (ha : p.head? = some a) : w.head? = some a := by
  obtain ⟨t, rfl⟩ := h
  cases p with
  | nil => simp at ha
  | cons x u => exact ha

theorem nl_prefix_join (ls : List (List Char))
    (hnl : ∀ l ∈ ls, '\n' ∉ l) (hh : ls.head? ≠ some []) :
    ¬ (['\n'] <+: joinLines ls) := by
  intro hp
  cases ls with
  | nil =>
    rw [show joinLines ([] : List (List Char)) = [] from rfl, List.prefix_nil] at hp
    simp at hp
  | cons m rest =>
    have hm : m ≠ [] := fun he => hh (by simp [he])
    have h1 : (joinLines (m :: rest)).head? = some '\n' :=
      prefix_head_head _ _ _ hp rfl
    rw [joinLines_head m rest hm] at h1
    exact hnl m (List.mem_cons_self _ _) (mem_of_head? _ _ h1)

theorem two_nl_prefix_join (ls : List (List Char))
    (hnl : ∀ l ∈ ls, '\n' ∉ l)
    (hch : List.Chain' (fun a b => a ≠ ([] : List Char) ∨ b ≠ []) ls) :
    ¬ (['\n', '\n'] <+: joinLines ls) := by
  intro hp
  cases ls with
  | nil =>
    rw [show joinLines ([] : List (List Char)) = [] from rfl, List.prefix_nil] at hp
    simp at hp
  | cons m rest =>
    by_cases hm : m = ([] : List Char)
    · subst hm
      cases rest with
      | nil =>
        rw [show joinLines [([] : List Char)] = [] from rfl, List.prefix_nil] at hp
        simp at hp
      | cons m2 rest2 =>
        rw [joinLines_cons [] _ (by simp), List.nil_append,
          List.cons_prefix_cons] at hp
        obtain ⟨-, hp2⟩ := hp
        obtain ⟨hhead, -⟩ := List.chain'_cons'.mp hch
        refine nl_prefix_join (m2 :: rest2)
          (fun l hl => hnl l (List.mem_cons_of_mem _ hl)) ?_ hp2
        intro he
        simp at he
        rcases hhead m2 rfl with h1 | h1
        · exact h1 rfl
        · exact h1 he
    · have h1 : (joinLines (m :: rest)).head? = some '\n' :=
        prefix_head_head _ _ _ hp rfl
      rw [joinLines_head m rest hm] at h1
      exact hnl m (List.mem_cons_self _ _) (mem_of_head? _ _ h1)

theorem no3nl (ls : List (List Char))
    (hnl : ∀ l ∈ ls, '\n' ∉ l)
    (hch : List.Chain' (fun a b => a ≠ ([] : List Char) ∨ b ≠ []) ls) :
    containsSeq ['\n', '\n', '\n'] (joinLines ls) = false := by
  induction ls with
  | nil => rfl
  | cons l rest ih =>
    by_cases h0 : rest = []
    · subst h0
      by_contra hcc
      have hinf := (containsSeq_iff _ _).mp (bool_ne_false _ hcc)
      exact hnl l (List.mem_cons_self _ _)
        (hinf.sublist.subset (List.mem_cons_self '\n' _))
    · rw [joinLines_cons l rest h0]
      by_contra hcc
      have hinf := (containsSeq_iff _ _).mp (bool_ne_false _ hcc)
      rcases infix_append_decomp _ _ _ hinf with h1 | h1 | ⟨p1, p2, heq, hp1, hp2, hs, hp⟩
      · exact hnl l (List.mem_cons_self _ _)
          (h1.sublist.subset (List.mem_cons_self '\n' _))
      · rcases List.infix_cons_iff.mp h1 with hpre | hinf2
        · rw [List.cons_prefix_cons] at hpre
          exact two_nl_prefix_join rest
            (fun m hm => hnl m (List.mem_cons_of_mem _ hm))
            ((List.chain'_cons'.mp hch).2) hpre.2
        · have := ih (fun m hm => hnl m (List.mem_cons_of_mem _ hm))
            ((List.chain'_cons'.mp hch).2)
          rw [(containsSeq_iff _ _).mpr hinf2] at this
          exact Bool.true_eq_false.mp this
      · cases hp1c : p1 with
        | nil => exact absurd hp1c hp1
        | cons a u =>
          rw [hp1c] at hs
          have hal : a ∈ l := hs.sublist.subset (List.mem_cons_self a u)
          have hapat : a ∈ (['\n', '\n', '\n'] : List Char) := by
            rw [heq, hp1c]
            exact List.mem_append_left p2 (List.mem_cons_self a u)
          have ha : a = '\n' := by simpa using hapat
          exact hnl l (List.mem_cons_self _ _) (ha ▸ hal)

theorem wsnl (ls : List (List Char))
    (hlines : ∀ l ∈ ls, pyStrip l = l ∧ '\n' ∉ l)
    (hch : List.Chain' (fun a b => a ≠ ([] : List Char) ∨ b ≠ []) ls) :
    ∀ c : Char, isPyWs c = true → ¬ c = '\n' →
      containsSeq [c, '\n'] (joinLines ls) = false ∧
      containsSeq ['\n', c] (joinLines ls) = false := by
  induction ls with
  | nil => intro c hws hc; exact ⟨rfl, rfl⟩
  | cons l rest ih =>
    intro c hws hc
    by_cases h0 : rest = []
    · subst h0
      constructor
      · by_contra hcc
        have hinf := (containsSeq_iff _ _).mp (bool_ne_false _ hcc)
        exact (hlines l (List.mem_cons_self _ _)).2
          (hinf.sublist.subset (by simp))
      · by_contra hcc
        have hinf := (containsSeq_iff _ _).mp (bool_ne_false _ hcc)
        exact (hlines l (List.mem_cons_self _ _)).2
          (hinf.sublist.subset (by simp))
    · rw [joinLines_cons l rest h0]
      have ihr := ih (fun m hm => hlines m (List.mem_cons_of_mem _ hm))
        ((List.chain'_cons'.mp hch).2) c hws hc
      constructor
      · by_contra hcc
        rcases dbl_append_decomp c '\n' _ _ (bool_ne_false _ hcc) with h1 | h1 | ⟨hlast, -⟩
        · have hinf := (containsSeq_iff _ _).mp h1
          exact (hlines l (List.mem_cons_self _ _)).2
            (hinf.sublist.subset (by simp))
        · rcases (dbl_cons_iff _ _ _ _).mp h1 with ⟨he, -⟩ | h2
          · exact hc he.symm
          · rw [ihr.1] at h2
            exact Bool.false_ne_true h2
        · have := pyStrip_last_not_ws l (hlines l (List.mem_cons_self _ _)).1 c hlast
          rw [hws] at this
          exact Bool.true_eq_false.mp this
      · by_contra hcc
        rcases dbl_append_decomp '\n' c _ _ (bool_ne_false _ hcc) with h1 | h1 | ⟨hlast, -⟩
        · have hinf := (containsSeq_iff _ _).mp h1
          exact (hlines l (List.mem_cons_self _ _)).2
            (hinf.sublist.subset (by simp))
        · rcases (dbl_cons_iff _ _ _ _).mp h1 with ⟨-, hh⟩ | h2
          · cases rest with
            | nil => exact absurd rfl h0
            | cons m rest2 =>
              by_cases hm : m = ([] : List Char)
              · subst hm
                cases rest2 with
                | nil => simp [joinLines] at hh
                | cons m3 rest3 =>
                  rw [joinLines_cons [] _ (by simp), List.nil_append] at hh
                  simp at hh
                  exact hc hh.symm
              · rw [joinLines_head m rest2 hm] at hh
                have hcm : c ∈ m := mem_of_head? _ _ hh
                have := pyStrip_head_not_ws m
                  (hlines m (List.mem_cons_of_mem _ (List.mem_cons_self _ _))).1 c hh
                rw [hws] at this
                exact Bool.true_eq_false.mp this
          · rw [ihr.2] at h2
            exact Bool.false_ne_true h2
        · exact (hlines l (List.mem_cons_self _ _)).2 (mem_of_getLast? _ _ hlast)

theorem all_nl (r : List Char) (hw : ∀ c ∈ r, isPyWs c = true)
    (hpairs : ∀ c : Char, isPyWs c = true → ¬ c = '\n' →
      containsSeq [c, '\n'] r = false ∧ containsSeq ['\n', c] r = false)
    (hmem : '\n' ∈ r) : ∀ c ∈ r, c = '\n' := by
  induction r with
  | nil => intro c hc; simp at hc
  | cons a r' ih =>
    intro c hc
    cases r' with
    | nil =>
      have ha : a = '\n' := (by simpa using hmem : '\n' = a).symm
      rcases List.mem_cons.mp hc with rfl | hc2
      · exact ha
      · simp at hc2
    | cons b r'' =>
      by_cases ha : a = '\n'
      · subst ha
        have hb : b = '\n' := by
          by_contra hb
          have hbw : isPyWs b = true := hw b (by simp)
          have := (hpairs b hbw hb).2
          have hpre : ['\n', b] <+: '\n' :: b :: r'' :=
            List.cons_prefix_cons.mpr ⟨rfl, List.cons_prefix_cons.mpr ⟨rfl, List.nil_prefix⟩⟩
          rw [(containsSeq_iff _ _).mpr hpre.isInfix] at this
          exact Bool.true_eq_false.mp this
        have hall' := ih (fun d hd => hw d (List.mem_cons_of_mem _ hd))
          (fun d hdw hdn => ⟨noSeq_cons_tail _ _ _ (hpairs d hdw hdn).1,
            noSeq_cons_tail _ _ _ (hpairs d hdw hdn).2⟩)
          (hb ▸ List.mem_cons_self b r'')
        rcases List.mem_cons.mp hc with rfl | hc2
        · rfl
        · exact hall' c hc2
      · exfalso
        have hnr' : '\n' ∈ b :: r'' := by
          rcases List.mem_cons.mp hmem with he | hm2
          · exact absurd he.symm ha
          · exact hm2
        have hall' := ih (fun d hd => hw d (List.mem_cons_of_mem _ hd))
          (fun d hdw hdn => ⟨noSeq_cons_tail _ _ _ (hpairs d hdw hdn).1,
            noSeq_cons_tail _ _ _ (hpairs d hdw hdn).2⟩) hnr'
        have hb : b = '\n' := hall' b (List.mem_cons_self _ _)
        have haw : isPyWs a = true := hw a (List.mem_cons_self _ _)
        have := (hpairs a haw ha).1
        have hpre : [a, '\n'] <+: a :: b :: r'' :=
          List.cons_prefix_cons.mpr ⟨rfl, hb ▸ List.cons_prefix_cons.mpr ⟨rfl, List.nil_prefix⟩⟩
        rw [(containsSeq_iff _ _).mpr hpre.isInfix] at this
        exact Bool.true_eq_false.mp this

theorem wsRunsOK_join (ls : List (List Char))
    (hlines : ∀ l ∈ ls, pyStrip l = l ∧ '\n' ∉ l)
    (hch : List.Chain' (fun a b => a ≠ ([] : List Char) ∨ b ≠ []) ls) :
    wsRunsOK (joinLines ls) := by
  intro r hr hw
  by_contra hcnt
  have h3 : 3 ≤ r.count '\n' := by omega
  have hmem : '\n' ∈ r := by
    by_contra hnm
    rw [List.count_eq_zero_of_not_mem hnm] at h3
    omega
  have hpairs : ∀ c : Char, isPyWs c = true → ¬ c = '\n' →
      containsSeq [c, '\n'] r = false ∧ containsSeq ['\n', c] r = false := by
    intro c hcw hcn
    have := wsnl ls hlines hch c hcw hcn
    exact ⟨noSeq_mono _ _ _ this.1 hr, noSeq_mono _ _ _ this.2 hr⟩
  have hall := all_nl r hw hpairs hmem
  have hrep := List.eq_replicate_of_mem hall
  have hlen : 3 ≤ r.length := by
    have := List.count_le_length '\n' r
    omega
  have hpre : ['\n', '\n', '\n'] <+: r := by
    rw [hrep]
    exact replicate_prefix_replicate '\n' 3 _ hlen
  have := no3nl ls (fun l hl => (hlines l hl).2) hch
  rw [(containsSeq_iff _ _).mpr (hpre.isInfix.trans hr)] at this
  exact Bool.true_eq_false.mp this

theorem getLast?_map (f : α → β) (l : List α) :
    (l.map f).getLast? = l.getLast?.map f := by
  induction l with
  | nil => rfl
  | cons a t ih =>
    cases t with
    | nil => rfl
    | cons b t' =>
      show (f a :: f b :: List.map f t').getLast? = _
      rw [List.getLast?_cons_cons, List.getLast?_cons_cons]
      exact ih

theorem cleanChars_eq (l : List Char) :
    cleanChars l = pyStrip (joinLines (collapseEmpties (filterShortLines
      (splitLines (charStages l))))) := rfl

theorem charStages_props (x : List Char) :
    containsSeq (List.replicate 2 ' ') (charStages x) = false ∧
    containsSeq (List.replicate 4 '!') (charStages x) = false ∧
    containsSeq (List.replicate 4 '?') (charStages x) = false ∧
    containsSeq (List.replicate 4 '.') (charStages x) = false ∧
    '\r' ∉ charStages x ∧ '\t' ∉ charStages x := by
  have h3 : containsSeq [' ', ' ']
      (collapseSpaces (tabsToSpaces (normNewlines x))) = false :=
    (cs_go_props (tabsToSpaces (normNewlines x))).1
  have h4 : containsSeq [' ', ' ']
      (collapseNLRuns (collapseSpaces (tabsToSpaces (normNewlines x)))) = false :=
    nlgo_nodbl _ [] (by simpa using h3)
  have h5 : containsSeq [' ', ' ']
      (stripSpacesAroundNL (collapseNLRuns (collapseSpaces (tabsToSpaces
        (normNewlines x))))) = false :=
    (sgo_nodbl _).1 h4 0 (by omega) (fun h0 => absurd h0 (by omega))
  have h6 := capq '!' ' ' 3 2 _ 0 (by omega) (by decide) (by omega) h5
  have h7 := capq '?' ' ' 3 2 _ 0 (by omega) (by decide) (by omega) h6
  have h8 := capq '.' ' ' 4 2 _ 0 (by omega) (by decide) (by omega) h7
  have b6 := cap_go_nofour '!' 3
    (stripSpacesAroundNL (collapseNLRuns (collapseSpaces (tabsToSpaces
      (normNewlines x))))) 0 (by omega) (by omega)
  have b7 := capq '?' '!' 3 4 _ 0 (by omega) (by decide) (by omega) b6
  have b8 := capq '.' '!' 4 4 _ 0 (by omega) (by decide) (by omega) b7
  have q7 := cap_go_nofour '?' 3
    (capPunct '!' 3 (stripSpacesAroundNL (collapseNLRuns (collapseSpaces
      (tabsToSpaces (normNewlines x)))))) 0 (by omega) (by omega)
  have q8 := capq '.' '?' 4 4 _ 0 (by omega) (by decide) (by omega) q7
  have d8 := cap_go_nofour '.' 4
    (capPunct '?' 3 (capPunct '!' 3 (stripSpacesAroundNL (collapseNLRuns
      (collapseSpaces (tabsToSpaces (normNewlines x))))))) 0 (by omega) (by omega)
  refine ⟨h8, b8, q8, d8, ?_, ?_⟩
  · intro hm
    rcases mem_capPunctGo '.' 4 '\r' _ 0 hm with he | hm
    · exact absurd he (by decide)
    rcases mem_capPunctGo '?' 3 '\r' _ 0 hm with he | hm
    · exact absurd he (by decide)
    rcases mem_capPunctGo '!' 3 '\r' _ 0 hm with he | hm
    · exact absurd he (by decide)
    rcases mem_sgo '\r' _ 0 false hm with he | hm
    · exact absurd he (by decide)
    rcases mem_nlgo '\r' _ [] hm with he | hm | hm
    · exact absurd he (by decide)
    · simp at hm
    have hm2 := mem_collapseSpacesGo '\r' false _ hm
    rcases mem_tabsToSpaces '\r' _ hm2 with he | hm3
    · exact absurd he (by decide)
    exact normNewlines_no_cr x hm3
  · intro hm
    rcases mem_capPunctGo '.' 4 '\t' _ 0 hm with he | hm
    · exact absurd he (by decide)
    rcases mem_capPunctGo '?' 3 '\t' _ 0 hm with he | hm
    · exact absurd he (by decide)
    rcases mem_capPunctGo '!' 3 '\t' _ 0 hm with he | hm
    · exact absurd he (by decide)
    rcases mem_sgo '\t' _ 0 false hm with he | hm
    · exact absurd he (by decide)
    rcases mem_nlgo '\t' _ [] hm with he | hm | hm
    · exact absurd he (by decide)
    · simp at hm
    have hm2 := mem_collapseSpacesGo '\t' false _ hm
    exact tabsToSpaces_no_tab _ hm2

theorem clean_fixed (w : List Char) (ls : List (List Char))
    (hls : ls ≠ [])
    (hlines : ∀ l ∈ ls, pyStrip l = l ∧ '\n' ∉ l ∧ keepLine l = true ∧ l <:+: w)
    (hch : List.Chain' (fun a b => a ≠ ([] : List Char) ∨ b ≠ []) ls)
    (hhead : ls.head? ≠ some []) (hlast : ls.getLast? ≠ some [])
    (hnodbl : containsSeq [' ', ' '] w = false)
    (hbang : containsSeq (List.replicate 4 '!') w = false)
    (hque : containsSeq (List.replicate 4 '?') w = false)
    (hdot : containsSeq (List.replicate 4 '.') w = false)
    (hcr : '\r' ∉ w) (htab : '\t' ∉ w) :
    cleanChars (joinLines ls) = joinLines ls := by
  have hstr : ∀ l ∈ ls, pyStrip l = l := fun l hl => (hlines l hl).1
  have hnlf : ∀ l ∈ ls, '\n' ∉ l := fun l hl => (hlines l hl).2.1
  have hinfw : ∀ l ∈ ls, l <:+: w := fun l hl => (hlines l hl).2.2.2
  have hcr_y : '\r' ∉ joinLines ls := by
    intro hm
    rcases joinLines_mem _ _ hm with ⟨l, hl, hcl⟩ | he
    · exact hcr ((hinfw l hl).sublist.subset hcl)
    · exact absurd he (by decide)
  have htab_y : '\t' ∉ joinLines ls := by
    intro hm
    rcases joinLines_mem _ _ hm with ⟨l, hl, hcl⟩ | he
    · exact htab ((hinfw l hl).sublist.subset hcl)
    · exact absurd he (by decide)
  have hsplit : splitLines (joinLines ls) = ls := split_join ls hls hnlf
  have pat_abs : ∀ pat : List Char, '\n' ∉ pat → containsSeq pat w = false →
      containsSeq pat (joinLines ls) = false := by
    intro pat hpnl hpw
    by_contra hcc
    have hinf := (containsSeq_iff _ _).mp (bool_ne_false _ hcc)
    obtain ⟨l, hl, hrl⟩ := nl_free_infix_line pat _ hinf hpnl
    rw [hsplit] at hl
    have h1 := (containsSeq_iff pat l).mpr hrl
    rw [noSeq_mono pat l w hpw (hinfw l hl)] at h1
    exact Bool.false_ne_true h1
  have hwsnl := wsnl ls (fun l hl => ⟨hstr l hl, hnlf l hl⟩) hch ' '
    (by decide) (by decide)
  have st1 : normNewlines (joinLines ls) = joinLines ls := normNewlines_id _ hcr_y
  have st2 : tabsToSpaces (joinLines ls) = joinLines ls := tabsToSpaces_id _ htab_y
  have st3 : collapseSpaces (joinLines ls) = joinLines ls :=
    collapseSpaces_id _ (pat_abs [' ', ' '] (by decide) hnodbl)
  have st4 : collapseNLRuns (joinLines ls) = joinLines ls :=
    collapseNLRuns_id _ (wsRunsOK_join ls (fun l hl => ⟨hstr l hl, hnlf l hl⟩) hch)
  have st5 : stripSpacesAroundNL (joinLines ls) = joinLines ls :=
    stripSpacesAroundNL_id _ hwsnl.1 hwsnl.2
  have st6 : capPunct '!' 3 (joinLines ls) = joinLines ls :=
    capPunct_id '!' 3 _ (by omega) (pat_abs _ (by decide) hbang)
  have st7 : capPunct '?' 3 (joinLines ls) = joinLines ls :=
    capPunct_id '?' 3 _ (by omega) (pat_abs _ (by decide) hque)
  have st8 : capPunct '.' 4 (joinLines ls) = joinLines ls :=
    capPunct_id '.' 4 _ (by omega) (pat_abs _ (by decide) hdot)
  have hfsl : filterShortLines ls = ls :=
    filterShortLines_id ls (fun l hl => ⟨hstr l hl, (hlines l hl).2.2.1⟩)
  have hce : collapseEmpties ls = ls := ce_go_id ls hch
  have strip_end : pyStrip (joinLines ls) = joinLines ls := by
    apply pyStrip_eq_self_of_ends
    · intro a ha
      cases ls with
      | nil => exact absurd rfl hls
      | cons l rest =>
        have hl_ne : l ≠ [] := fun he => hhead (by simp [he])
        rw [joinLines_head l rest hl_ne] at ha
        exact pyStrip_head_not_ws l (hstr l (List.mem_cons_self _ _)) a ha
    · intro a ha
      have hrev : (joinLines ls).reverse.head? = some a := by
        rw [List.head?_reverse]
        exact ha
      rw [join_reverse] at hrev
      cases hls' : (ls.map List.reverse).reverse with
      | nil =>
        rw [hls'] at hrev
        rw [show joinLines ([] : List (List Char)) = [] from rfl] at hrev
        simp at hrev
      | cons m rest' =>
        rw [hls'] at hrev
        have hm_eq : (ls.getLast?).map List.reverse = some m := by
          have h1 : ((ls.map List.reverse).reverse).head? = some m := by
            rw [hls']
            rfl
          rw [List.head?_reverse] at h1
          rw [← getLast?_map List.reverse ls]
          exact h1
        cases hgl : ls.getLast? with
        | none =>
          rw [hgl] at hm_eq
          simp at hm_eq
        | some l0 =>
          rw [hgl] at hm_eq
          have hm : m = l0.reverse := by simpa using hm_eq.symm
          have hl0ne : l0 ≠ [] := fun he => hlast (by rw [hgl, he])
          have hm_ne : m ≠ [] := by
            rw [hm]
            simpa using hl0ne
          rw [joinLines_head m rest' hm_ne] at hrev
          rw [hm, List.head?_reverse] at hrev
          exact pyStrip_last_not_ws l0 (hstr l0 (mem_of_getLast? ls l0 hgl)) a hrev
  show pyStrip (joinLines (collapseEmpties (filterShortLines (splitLines
    (capPunct '.' 4 (capPunct '?' 3 (capPunct '!' 3 (stripSpacesAroundNL
      (collapseNLRuns (collapseSpaces (tabsToSpaces (normNewlines
        (joinLines ls))))))))))))) = joinLines ls
  rw [st1, st2, st3, st4, st5, st6, st7, st8, hsplit, hfsl, hce, strip_end]

theorem cleanChars_idem (x : List Char) :
    cleanChars (cleanChars x) = cleanChars x := by
  obtain ⟨hnodbl, hbang, hque, hdot, hcr, htab⟩ := charStages_props x
  have hms_str : ∀ l ∈ collapseEmpties (filterShortLines (splitLines
      (charStages x))), pyStrip l = l := by
    intro l hl
    have h1 := ceGo_mem l _ false hl
    obtain ⟨⟨l0, hl0, rfl⟩, -⟩ := filterShortLines_mem _ _ h1
    exact pyStrip_stripped l0
  have hy : cleanChars x = joinLines (trimEmpties (collapseEmpties
      (filterShortLines (splitLines (charStages x))))) := by
    rw [cleanChars_eq]
    exact strip_join _ hms_str
  by_cases h0 : trimEmpties (collapseEmpties (filterShortLines (splitLines
      (charStages x)))) = []
  · rw [hy, h0, show joinLines ([] : List (List Char)) = [] from rfl]
    rfl
  · rw [hy]
    apply clean_fixed (charStages x) _ h0
    · intro l hl
      have hmem_ms := trim_mem _ l hl
      have h1 := ceGo_mem l _ false hmem_ms
      obtain ⟨⟨l0, hl0, rfl⟩, hkeep⟩ := filterShortLines_mem _ _ h1
      refine ⟨pyStrip_stripped l0, ?_, hkeep, ?_⟩
      · intro hnl
        exact splitLines_no_nl _ l0 hl0 ((pyStrip_isInfix l0).sublist.subset hnl)
      · exact (pyStrip_isInfix l0).trans (splitLines_mem_isInfix _ l0 hl0)
    · exact trim_chain _ (ce_go_props _).1
    · exact (trim_ends _ h0).1
    · exact (trim_ends _ h0).2
    · exact hnodbl
    · exact hbang
    · exact hque
    · exact hdot
    · exact hcr
    · exact htab

/-- **C6.**  The text normalizer is idempotent: for every input string `x`,
`enhanced_text_cleaning (enhanced_text_cleaning x) = enhanced_text_cleaning x`.
The fixed-point argument: the output is a `'\n'`-join of stripped lines with
no `'\r'`/`'\t'`, no double spaces, no spaces adjacent to newlines, at most
two consecutive newlines and punctuation runs capped at three, so every
substitution pass of a second run leaves it unchanged. -/
theorem C6_cleaning_idempotent (s : String) :
    enhanced_text_cleaning (enhanced_text_cleaning s) = enhanced_text_cleaning s := by
  by_cases h0 : s = ""
  · subst h0
    rfl
  · show enhanced_text_cleaning (if s = "" then "" else ⟨cleanChars s.data⟩) = _
    rw [if_neg h0]
    by_cases h1 : (⟨cleanChars s.data⟩ : String) = ""
    · show (if (⟨cleanChars s.data⟩ : String) = "" then ""
        else ⟨cleanChars (⟨cleanChars s.data⟩ : String).data⟩) = _
      rw [if_pos h1]
      show _ = if s = "" then "" else (⟨cleanChars s.data⟩ : String)
      rw [if_neg h0]
      exact h1.symm
    · show (if (⟨cleanChars s.data⟩ : String) = "" then ""
        else ⟨cleanChars (⟨cleanChars s.data⟩ : String).data⟩) = _
      rw [if_neg h1]
      show (⟨cleanChars (cleanChars s.data)⟩ : String) = _
      rw [cleanChars_idem s.data]
      show _ = if s = "" then "" else (⟨cleanChars s.data⟩ : String)
      rw [if_neg h0]

end NLPApp
